import Mathlib

/-!
Shallow embedding of `Tools/F_scripts/write_cuda_headers.py`, a build-time
source-to-source transformer: it scans C++ files for `#pragma gpu` markers,
collects target Fortran-binding names and tagged argument positions, captures
the matching declarations in headers, and rewrites each into a device
declaration plus a grid-stride kernel-launch declaration.

Python strings are modelled as `List Char` (`Str`).  Each Python string
operation used by the script (`strip`, `rstrip`, `lower`, `find`, `replace`,
`split`, slicing, `in`, `startswith`, `endswith`) is given a faithful
executable counterpart below, and the two regular expressions (`decls_re`,
`fortran_binding_re`) are modelled directly by their search semantics.
File reading is modelled by a `List Str` of lines (each line normally ending
in a newline, the way `readline` returns them); a `while`-loop that would
spin forever at end of file (reading `""` repeatedly) is modelled by an
`Option`/`diverge` result.
-/

set_option autoImplicit false

namespace WriteCudaHeaders

/-- Python strings are modelled as lists of characters. -/
abbrev Str := List Char

/-- Coerce a Lean string literal to the `Str` model. -/
def str (s : String) : Str := s.data

/-- Python whitespace for `str.strip` / `str.split` / the regex class. -/
def isPyWs (c : Char) : Bool :=
  c = ' ' || c = '\t' || c = '\n' || c = '\r' || c = '\x0b' || c = '\x0c'

/-- Python `s.lstrip()`. -/
def pyLstrip (s : Str) : Str := s.dropWhile isPyWs

/-- Python `s.rstrip()`. -/
def pyRstrip (s : Str) : Str := ((s.reverse).dropWhile isPyWs).reverse

/-- Python `s.strip()`. -/
def pyStrip (s : Str) : Str := pyRstrip (pyLstrip s)

/-- Python `s.lower()` (inputs are ASCII). -/
def pyLower (s : Str) : Str := s.map Char.toLower

/-- Python `s.endswith(t)`. -/
def pyEndsWith (s t : Str) : Bool := t.isSuffixOf s

/-- Python `s.startswith(t)`. -/
def pyStartsWith (s t : Str) : Bool := t.isPrefixOf s

/-- Scan for the first index at which `pat` occurs in the remaining text. -/
def pyFindGo (pat : Str) : Str → Option Nat
  | [] => if pat = [] then some 0 else none
  | c :: rest =>
    if pat.isPrefixOf (c :: rest) then some 0
    else (pyFindGo pat rest).map (· + 1)

/-- Python `s.find(pat)` returning `some index` instead of the index, `none`
instead of `-1`. -/
def pyFind (s pat : Str) : Option Nat := pyFindGo pat s

/-- Python `s.find(pat)` with the actual `-1` convention. -/
def pyFindInt (s pat : Str) : Int :=
  match pyFind s pat with
  | some i => (i : Int)
  | none => -1

/-- Python `pat in s`. -/
def pyContains (s pat : Str) : Bool := (pyFind s pat).isSome

/-- Python `s.replace("", rep)` inserts `rep` before every character and at
the end. -/
def pyReplaceEmpty (rep : Str) : Str → Str
  | [] => rep
  | c :: rest => rep ++ c :: pyReplaceEmpty rep rest

/-- Fuelled worker for `pyReplace`: replaces every non-overlapping occurrence
of `pat`, scanning left to right.  The fuel starts at the length of the text
and never runs out on the initial call. -/
def pyReplaceGo (pat rep : Str) : Nat → Str → Str
  | _, [] => []
  | 0, s => s
  | fuel + 1, c :: rest =>
    if pat.isPrefixOf (c :: rest) then
      rep ++ pyReplaceGo pat rep fuel (List.drop pat.length (c :: rest))
    else
      c :: pyReplaceGo pat rep fuel rest

/-- Python `s.replace(pat, rep)`: every non-overlapping occurrence, left to
right. -/
def pyReplace (s pat rep : Str) : Str :=
  if pat = [] then pyReplaceEmpty rep s else pyReplaceGo pat rep s.length s

/-- Fragments of `s` between non-overlapping occurrences of `pat`
(Python `s.split(pat)` for a non-empty separator), with the same fuel
discipline as `pyReplaceGo`. -/
def pySplitStrGo (pat : Str) : Nat → Str → List Str
  | _, [] => [[]]
  | 0, s => [s]
  | fuel + 1, c :: rest =>
    if pat.isPrefixOf (c :: rest) then
      [] :: pySplitStrGo pat fuel (List.drop pat.length (c :: rest))
    else
      match pySplitStrGo pat fuel rest with
      | [] => [[c]]
      | f :: fs => (c :: f) :: fs

/-- Python `s.split(pat)` for a non-empty separator string. -/
def pySplitStr (s pat : Str) : List Str :=
  if pat = [] then [s] else pySplitStrGo pat s.length s

/-- Join a list of strings with a separator (Python `sep.join(parts)`). -/
def joinSep (sep : Str) : List Str → Str
  | [] => []
  | [x] => x
  | x :: y :: xs => x ++ sep ++ joinSep sep (y :: xs)

/-- Python `s.split()` (no argument): split on whitespace runs, dropping
empty pieces. -/
def pySplitWs (s : Str) : List Str := (s.splitOnP isPyWs).filter (· ≠ [])

/-- Python `s.split(c)` for a single-character separator: every occurrence,
empty pieces kept. -/
def pySplitChar (c : Char) (s : Str) : List Str := s.splitOn c

/-- Clamp a Python index into `[0, n]`, resolving negative indices. -/
def pyClamp (n : Nat) (i : Int) : Nat :=
  let i' : Int := if i < 0 then i + n else i
  if i' < 0 then 0 else if i' > n then n else i'.toNat

/-- Python slice `s[a:b]` (step 1) with full negative-index and clamping
semantics. -/
def pySlice (s : Str) (a b : Int) : Str :=
  let a' := pyClamp s.length a
  let b' := pyClamp s.length b
  (s.drop a').take (b' - a')

/-- Python `s[a:]`. -/
def pySliceFrom (s : Str) (a : Int) : Str := pySlice s a s.length

/-- First index of a character (used for the first `(`). -/
def indexOfChar (c : Char) : Str → Option Nat
  | [] => none
  | x :: xs => if x = c then some 0 else (indexOfChar c xs).map (· + 1)

/-- Last index of a character (used for the last `)`). -/
def lastIndexOfChar (c : Char) (s : Str) : Option Nat :=
  (indexOfChar c s.reverse).map (fun k => s.length - 1 - k)

/-- Python `s.split(c, 1)[1]`: the text after the first occurrence of `c`;
`none` models the `IndexError` when `c` is absent. -/
def afterFirstChar (c : Char) : Str → Option Str
  | [] => none
  | x :: xs => if x = c then some xs else afterFirstChar c xs

/-- Python `s.rsplit(c, 1)[0]`: the text before the last occurrence of `c`,
or the whole string when `c` is absent (no error in this direction). -/
def beforeLastChar (c : Char) (s : Str) : Str :=
  match lastIndexOfChar c s with
  | none => s
  | some j => s.take j

/-! ### Regular expressions

`decls_re = re.compile("(.*?)(\\()(.*)(\\))", re.IGNORECASE|re.DOTALL)`:
with a lazy head and a greedy middle, a successful search spans from the
start of the string to the last `)`, group 1 is everything before the first
`(`, group 3 is everything between the first `(` and the last `)`.  The
search succeeds exactly when the first `(` precedes the last `)`.

`fortran_binding_re = re.compile("(void)(\\s+)((?:[a-z][a-z_]+))", ...)`:
searched on an already-lowercased line, it finds the leftmost occurrence of
the literal `void` followed by at least one whitespace character and then a
name of two or more characters from `[a-z][a-z_]+`; group 3 is the name.
-/

/-- Search result of `decls_re`: `(group 1, group 3, group 0)`. -/
def declsSearch (s : Str) : Option (Str × Str × Str) :=
  match indexOfChar '(' s, lastIndexOfChar ')' s with
  | some i, some j =>
    if i < j then some (s.take i, (s.drop (i + 1)).take (j - (i + 1)), s.take (j + 1))
    else none
  | _, _ => none

/-- Lower-case ASCII letter, the regex class `[a-z]` on lowercased text. -/
def isLowerAlpha (c : Char) : Bool := 'a' ≤ c && c ≤ 'z'

/-- The regex class `[a-z_]`. -/
def isNameChar (c : Char) : Bool := isLowerAlpha c || c = '_'

/-- Try to match `void\s+[a-z][a-z_]+` at the start of `s`, returning the
name (regex group 3). -/
def matchVoidAt (s : Str) : Option Str :=
  if (str "void").isPrefixOf s then
    let rest := s.drop 4
    if (rest.takeWhile isPyWs) = [] then none
    else
      match rest.dropWhile isPyWs with
      | [] => none
      | c :: cs =>
        if isLowerAlpha c then
          let tail := cs.takeWhile isNameChar
          if tail = [] then none else some (c :: tail)
        else none
  else none

/-- Search semantics of `fortran_binding_re` on (already lowercased) text:
the leftmost position at which `matchVoidAt` succeeds wins. -/
def bindingSearch : Str → Option Str
  | [] => none
  | c :: rest =>
    match matchVoidAt (c :: rest) with
    | some g => some g
    | none => bindingSearch rest

/-! ### Shared line handling -/

/-- Comment stripping as both header passes perform it:
`idx = line.find("//"); tline = line[:idx]`.  When `//` is absent, `find`
returns `-1` and the slice drops the final character of the line. -/
def stripComment (line : Str) : Str :=
  match pyFind line (str "//") with
  | some i => line.take i
  | none => line.take (line.length - 1)

/-- The matching step both header passes run on each line: search the
lowercased comment-stripped line with `fortran_binding_re` and accept when
the captured group equals one of the pending names. -/
def findTarget (targets : List Str) (line : Str) : Option Str :=
  match bindingSearch (pyLower (stripComment line)) with
  | none => none
  | some g => if g ∈ targets then some g else none

/-- A line terminates a captured statement when its stripped text ends with
`;`. -/
def endsWithSemi (l : Str) : Bool := pyEndsWith (pyStrip l) (str ";")

/-! ### Statement-capture loops

Three variants of the duplicated "accumulate until terminator" loop.
`none` models the Python behaviour at end of file: `readline` returns `""`
forever, `"".strip().endswith(";")` is false, and the loop never exits.
-/

/-- Capture loop of `find_targets_from_pragmas` (lines 112-117) and
`convert_cxx` (lines 446-450), run on the lines after the marker: all lines
up to the terminator accumulate whole; the terminator line contributes
`line.rstrip()[:-1]`.  Returns `(buffer, consumed lines, remaining lines)`. -/
def captureCall3 : List Str → Option (Str × List Str × List Str)
  | [] => none
  | l :: ls =>
    if endsWithSemi l then some ((pyRstrip l).dropLast, [l], ls)
    else (captureCall3 ls).map (fun (b, c, r) => (l ++ b, l :: c, r))

/-- Capture loop of `convert_headers` pass 1 (lines 197-202), starting at the
matched line itself: the `while` guard tests the current line first, so a
matched line that itself ends in `;` terminates immediately.  Returns
`(buffer, remaining lines)`. -/
def captureSig1 (l : Str) (ls : List Str) : Option (Str × List Str) :=
  if endsWithSemi l then some (l, ls)
  else
    match ls with
    | [] => none
    | l2 :: ls2 => (captureSig1 l2 ls2).map (fun (b, r) => (l ++ b, r))

/-- Capture loop of `convert_headers` pass 2 (lines 260-266): a do-while that
reads the next line before testing, so only lines after the matched one can
terminate it.  Returns `(consumed lines, remaining lines)`; the matched line
is prepended by the caller. -/
def captureSig2c : List Str → Option (List Str × List Str)
  | [] => none
  | l :: ls =>
    if endsWithSemi l then some ([l], ls)
    else (captureSig2c ls).map (fun (c, r) => (l :: c, r))

/-- Reconstruct the buffer of `captureCall3` from its consumed lines. -/
def bufOfConsumed : List Str → Str
  | [] => []
  | [l] => (pyRstrip l).dropLast
  | l :: l2 :: ls => l ++ bufOfConsumed (l2 :: ls)

/-! ### Target Collector (`find_targets_from_pragmas`, lines 84-136)

Parsing of one captured marker statement (lines 121-132): regex split into
name and argument text, then `targets[func_name]` records, for each tag in
`macro_list`, the indices of the naively comma-split arguments that contain
the tag. -/

/-- Parse one captured `#pragma gpu` statement buffer.  `none` models the
`AttributeError` crash when `decls_re` does not match. -/
def parsePragmaCall (buf : Str) (tag_list : List Str) : Option (Str × List (List Nat)) :=
  match declsSearch buf with
  | none => none
  | some (g1, _, full) =>
    let func_name := pyReplace (pyStrip g1) (str " ") []
    match afterFirstChar '(' (pyStrip full) with
    | none => none
    | some t =>
      let args := pySplitChar ',' (beforeLastChar ')' t)
      some (func_name,
        tag_list.map (fun tag =>
          (args.enum.filter (fun p => pyContains p.2 tag)).map (fun p => p.1)))

/-! ### Signature Rewriter (`convert_headers`, lines 297-395)

One captured declaration `sig0` (keyed by the lowercased target `name`) plus
its recorded tag positions is turned into a `__device__` declaration and a
`__global__` kernel declaration instantiating `TEMPLATE`.
-/

/-- Result of rewriting one signature: the emitted pair, the `sys.exit`
convention failure, or an uncaught Python exception (`IndexError` /
`AttributeError`). -/
inductive RunOut where
  | ok : Str → Str → RunOut
  | fatal : Str → RunOut
  | crash : RunOut
deriving DecidableEq

/-- The `sys.exit` message of line 377. -/
def fatalMsg (name fsig : Str) : Str :=
  str "ERROR: function signature must have variables lo and hi defined:\n--- function name:\n "
    ++ name ++ str " \n--- function signature:\n " ++ fsig ++ str "\n---"

/-- The three-scalar replacement text `const int v_1, const int v_2, const
int v_3` used for tagged and legacy bound parameters (lines 353, 360, 363). -/
def tripleScalar (v : Str) : Str :=
  str "const int " ++ v ++ str "_1, const int " ++ v ++ str "_2, const int " ++ v ++ str "_3"

/-- The case-preserving occurrence of the target name: `idx` from
`func_sig.lower().find(name)` and the slice `func_sig[idx:idx+len(name)]`
(lines 306-309). -/
def caseNameOf (name sig0 : Str) : Str :=
  pySlice sig0 (pyFindInt (pyLower sig0) name) (pyFindInt (pyLower sig0) name + name.length)

/-- The device signature after lines 301-313: `"__device__ {};\n\n"` formatted
with the captured signature, then `replace(case_name, case_name + "_device")`. -/
def deviceSigOf (name sig0 : Str) : Str :=
  let case_name := caseNameOf name sig0
  pyReplace (str "__device__ " ++ sig0 ++ str ";\n\n") case_name (case_name ++ str "_device")

/-- The per-iteration recomputation of `args` (line 342):
`signatures[name][0].split('(', 1)[1].rsplit(')', 1)[0].split(',')`. -/
def sigArgsOf (sig0 : Str) : Option (List Str) :=
  (afterFirstChar '(' sig0).map (fun t => pySplitChar ',' (beforeLastChar ')' t))

/-- Mutable state threaded through the parameter loop of lines 327-374. -/
structure LoopSt where
  fsig : Str
  dsig : Str
  vars : List Str
  ivars : List Str
  hasLo : Bool
  hasHi : Bool
deriving DecidableEq

/-- The inner `for arg_position in arg_positions` loop (lines 348-356): on
each position equal to the current index `n`, re-derive `var` from the raw
argument text and rewrite both signatures.  Accumulator is
`(var, func_sig, device_sig, intvect_vars)`. -/
def tagLoop (args : List Str) (n : Nat) :
    List Nat → Str × Str × Str × List Str → Option (Str × Str × Str × List Str)
  | [], acc => some acc
  | p :: ps, (var, fsig, dsig, ivars) =>
    if n = p then
      (args.get? p).bind (fun arg =>
        ((pySplitWs arg).getLast?).bind (fun var2 =>
          tagLoop args n ps
            (var2, pyReplace fsig arg (tripleScalar var2),
             pyReplace dsig arg (str "const int* " ++ var2), ivars ++ [var2])))
    else tagLoop args n ps (var, fsig, dsig, ivars)

/-- The token processing of lines 331-336: last-token sigil stripping and
macro substitution, producing the candidate variable name `var`. -/
def procToken (last : Str) : Str :=
  pyReplace (pyReplace (pyStrip (pyReplace (pyReplace last (str "*") []) (str "&") []))
    (str "BL_FORT_FAB_ARG_3D") (str "BL_FORT_FAB_VAL_3D"))
    (str "BL_FORT_IFAB_ARG_3D") (str "BL_FORT_FAB_VAL_3D")

/-- The recomputed variable name of a tagged position:
`args[arg_position].split()[-1]` over the per-iteration `args` list. -/
def tagVarOf (args : List Str) (n : Nat) : Option Str :=
  (args.get? n).bind (fun a => (pySplitWs a).getLast?)

/-- The name a parameter carries at the bound check of lines 366-372: the
last whitespace token with `*`/`&` removed and macros substituted, overridden
for tagged positions by `args[n].split()[-1]`.  `none` marks the
`IndexError` crashes of `_tmp[-1]` / `args[arg_position]`. -/
def boundVarName (sig0 : Str) (arg_positions : List Nat) (n : Nat) (v : Str) : Option Str :=
  ((pySplitWs v).getLast?).bind (fun last =>
    if arg_positions = [] then some (procToken last)
    else if n ∈ arg_positions then (sigArgsOf sig0).bind (fun args => tagVarOf args n)
    else some (procToken last))

/-- The legacy branch of lines 357-364 (no tagged positions): textual
replacement of `const int* lo` / `const int* hi` in the kernel signature. -/
def legacyBranch (var1 : Str) (st : LoopSt) : Option (Str × Str × Str × List Str) :=
  if var1 = str "lo" then
    some (var1, pyReplace st.fsig (str "const int* lo") (tripleScalar (str "lo")),
      st.dsig, st.ivars ++ [str "lo"])
  else if var1 = str "hi" then
    some (var1, pyReplace st.fsig (str "const int* hi") (tripleScalar (str "hi")),
      st.dsig, st.ivars ++ [str "hi"])
  else some (var1, st.fsig, st.dsig, st.ivars)

/-- The bound bookkeeping of lines 366-374: rename `lo`/`hi` to `blo`/`bhi`
in the forwarding list and raise the corresponding flag. -/
def applyFlags (acc : Str × Str × Str × List Str) (st : LoopSt) : LoopSt :=
  if acc.1 = str "lo" then
    { fsig := acc.2.1, dsig := acc.2.2.1, vars := st.vars ++ [str "blo"],
      ivars := acc.2.2.2, hasLo := true, hasHi := st.hasHi }
  else if acc.1 = str "hi" then
    { fsig := acc.2.1, dsig := acc.2.2.1, vars := st.vars ++ [str "bhi"],
      ivars := acc.2.2.2, hasLo := st.hasLo, hasHi := true }
  else
    { fsig := acc.2.1, dsig := acc.2.2.1, vars := st.vars ++ [acc.1],
      ivars := acc.2.2.2, hasLo := st.hasLo, hasHi := st.hasHi }

/-- One iteration of the `for n, v in enumerate(dd.group(3).split(","))` loop
(lines 327-374). -/
def paramStep (sig0 : Str) (arg_positions : List Nat) (n : Nat) (v : Str)
    (st : LoopSt) : Option LoopSt :=
  ((pySplitWs v).getLast?).bind (fun last =>
    (sigArgsOf sig0).bind (fun args =>
      (if arg_positions = [] then legacyBranch (procToken last) st
       else tagLoop args n arg_positions (procToken last, st.fsig, st.dsig, st.ivars)).map
        (fun acc => applyFlags acc st)))

/-- The whole enumerated parameter loop. -/
def paramLoop (sig0 : Str) (arg_positions : List Nat) :
    Nat → List Str → LoopSt → Option LoopSt
  | _, [], st => some st
  | n, v :: vs, st =>
    (paramStep sig0 arg_positions n v st).bind (paramLoop sig0 arg_positions (n + 1) vs)

/-- Instantiation of `TEMPLATE` (lines 38-58): `TEMPLATE.format(a, b, c)`
where `a` is the kernel signature text, `b` the local `IntVect`
reconstructions and `c` the inner device call. -/
def templateFormat (a b c : Str) : Str :=
  str "\n__global__ static void cuda_" ++ a ++ str "\n\x7b\n" ++ b ++
  str "\n   int blo[3];\n   int bhi[3];\n   for (int k = lo[2] + blockIdx.z * blockDim.z + threadIdx.z; k <= hi[2]; k += blockDim.z * gridDim.z) \x7b\n     blo[2] = k;\n     bhi[2] = k;\n     for (int j = lo[1] + blockIdx.y * blockDim.y + threadIdx.y; j <= hi[1]; j += blockDim.y * gridDim.y) \x7b\n       blo[1] = j;\n       bhi[1] = j;\n       for (int i = lo[0] + blockIdx.x * blockDim.x + threadIdx.x; i <= hi[0]; i += blockDim.x * gridDim.x) \x7b\n         blo[0] = i;\n         bhi[0] = i;\n         " ++
  c ++ str ";\n       \x7d\n     \x7d\n   \x7d\n\x7d\n"

/-- The local 3-element array reconstructions (lines 386-390). -/
def intvectsOf (ivars : List Str) : Str :=
  (ivars.map (fun v =>
    str "   int " ++ v ++ str "[3] = \x7b" ++ v ++ str "_1, " ++ v ++ str "_2, " ++ v ++ str "_3\x7d;\n")).flatten

/-- Rewriting of one captured signature (`convert_headers` body of the
`for name in list(signatures_needed)` loop, lines 297-395), producing the
device declaration and the kernel text written by lines 393-394. -/
def processSignature (name sig0 : Str) (arg_positions : List Nat) : RunOut :=
  let idx : Int := pyFindInt (pyLower sig0) name
  let dsig1 := deviceSigOf name sig0
  match declsSearch sig0 with
  | none => .crash
  | some (_, g3, _) =>
    match paramLoop sig0 arg_positions 0 (pySplitChar ',' g3)
      { fsig := sig0, dsig := dsig1, vars := [], ivars := [],
        hasLo := false, hasHi := false } with
    | none => .crash
    | some st =>
      if st.hasLo && st.hasHi then
        let case_name := caseNameOf name sig0
        let new_call := case_name ++ str "_device" ++ str "(" ++ joinSep (str ", ") st.vars ++ str ")"
        .ok st.dsig
          (templateFormat (pyReplace (pySliceFrom st.fsig idx) (str ";") [])
            (intvectsOf st.ivars) new_call)
      else .fatal (fatalMsg name st.fsig)

/-! ### Call-Site Expander (`convert_cxx`, lines 410-473) -/

/-- The fixed launch sequence written for one marked call (lines 461-467):
`hout.write(...)` with eight occurrences of the function name and the raw
argument text. -/
def cxxEmit (fname args : Str) : Str :=
  str "dim3 " ++ fname ++ str "numBlocks, " ++ fname ++
  str "numThreads;\nDevice::grid_stride_threads_and_blocks(" ++ fname ++ str "numBlocks, " ++
  fname ++
  str "numThreads);\n#if ((__CUDACC_VER_MAJOR__ > 9) || (__CUDACC_VER_MAJOR__ == 9 && __CUDACC_VER_MINOR__ >= 1))\nCudaAPICheck(cudaFuncSetAttribute(&cuda_" ++
  fname ++ str ", cudaFuncAttributePreferredSharedMemoryCarveout, 0));\n#endif\ncuda_" ++
  fname ++ str "<<<" ++ fname ++ str "numBlocks, " ++ fname ++
  str "numThreads, 0, Device::cudaStream()>>>\n    (" ++ args ++ str ");\n"

/-- One element of the output decomposition of `convert_cxx`: either a line
written through verbatim, or a marker-triggered call region (its source
lines) together with the text emitted in its place. -/
inductive CItem where
  | keep : Str → CItem
  | reg : List Str → Str → CItem
deriving DecidableEq

/-- The input lines an item accounts for. -/
def citemSrc : CItem → List Str
  | .keep l => [l]
  | .reg src _ => src

/-- Flatten a decomposition back to the input lines it covers. -/
def citemsSrc (items : List CItem) : List Str := (items.map citemSrc).flatten

/-- The text an item contributes to the output file. -/
def citemOut : CItem → Str
  | .keep l => l
  | .reg _ out => out

/-- The whole output text of a decomposition (the `hout.write` sequence). -/
def citemsOut (items : List CItem) : Str := (items.map citemOut).flatten

/-- Result of a whole-file scan: the decomposition, or the end-of-file
infinite loop (`diverge`), or an uncaught exception (`crash`). -/
inductive CxxRes where
  | ok : List CItem → CxxRes
  | diverge : CxxRes
  | crash : CxxRes
deriving DecidableEq

/-- Fuelled worker for `convert_cxx`; the fuel starts at the number of lines
and suffices because every step consumes at least one line. -/
def convertCxxGo : Nat → List Str → CxxRes
  | _, [] => .ok []
  | 0, _ :: _ => .diverge
  | fuel + 1, l :: ls =>
    if pyStartsWith l (str "#pragma gpu") then
      match captureCall3 ls with
      | none => .diverge
      | some (buf, consumed, rest) =>
        match declsSearch buf with
        | none => .crash
        | some (g1, g3, _) =>
          match convertCxxGo fuel rest with
          | .ok items =>
            .ok (.reg (l :: consumed) (cxxEmit (pyReplace (pyStrip g1) (str " ") []) g3) :: items)
          | r => r
    else
      match convertCxxGo fuel ls with
      | .ok items => .ok (.keep l :: items)
      | r => r

/-- The `convert_cxx` scan of one file, as an output decomposition. -/
def convert_cxx (lines : List Str) : CxxRes := convertCxxGo lines.length lines

/-- The text `convert_cxx` writes for one file, when it terminates. -/
def convertCxxOutput (lines : List Str) : Option Str :=
  match convert_cxx lines with
  | .ok items => some (citemsOut items)
  | _ => none

/-! ### Signature Extractor (`convert_headers`, passes over one header)

Pass 1 (lines 174-208) scans the preprocessed header and records captured
signatures keyed by target name (a Python dict: later finds overwrite).
Pass 2 (lines 235-272) re-scans the original header, copies through every
line that does not start a needed signature, consumes matched regions, and
records which names are needed (`signatures_needed`, again keyed by name).
-/

/-- Overwrite-or-append update of an association list, as Python dict
assignment behaves (key position preserved on overwrite). -/
def updateAssoc (acc : List (Str × Str)) (k v : Str) : List (Str × Str) :=
  if acc.any (fun p => p.1 = k) then
    acc.map (fun p => if p.1 = k then (k, v) else p)
  else acc ++ [(k, v)]

/-- Pass 1: collect `signatures` as an association list from target name to
captured signature text.  `none` models the end-of-file infinite loop. -/
def pass1Go : Nat → List Str → List Str → List (Str × Str) → Option (List (Str × Str))
  | _, _, [], acc => some acc
  | 0, _, _ :: _, _ => none
  | fuel + 1, targets, l :: ls, acc =>
    match findTarget targets l with
    | some name =>
      match captureSig1 l ls with
      | none => none
      | some (buf, rest) => pass1Go fuel targets rest (updateAssoc acc name buf)
    | none => pass1Go fuel targets ls acc

/-- Pass 1 over a whole (preprocessed) header. -/
def pass1Scan (targets : List Str) (lines : List Str) : Option (List (Str × Str)) :=
  pass1Go lines.length targets lines []

/-- One element of the pass-2 decomposition: a line written through
verbatim, or a consumed declaration region (replaced by nothing in place;
the generated pairs are appended at the end of the header). -/
inductive HItem where
  | keep : Str → HItem
  | reg : List Str → HItem
deriving DecidableEq

/-- The input lines a pass-2 item accounts for. -/
def hitemSrc : HItem → List Str
  | .keep l => [l]
  | .reg src => src

/-- Flatten a pass-2 decomposition back to the input lines. -/
def hitemsSrc (items : List HItem) : List Str := (items.map hitemSrc).flatten

/-- The lines pass 2 writes through (`hout.write(line)` calls). -/
def hitemsOut (items : List HItem) : Str :=
  (items.filterMap (fun i => match i with | .keep l => some l | .reg _ => none)).flatten

/-- Record a needed name the way `signatures_needed[found] = ...` does: dict
keys stay unique, first insertion fixes the position. -/
def insertIfAbsent (acc : List Str) (n : Str) : List Str :=
  if n ∈ acc then acc else acc ++ [n]

/-- Pass 2: decompose the original header's lines and accumulate the needed
names.  `none` models the end-of-file infinite loop. -/
def pass2Go : Nat → List Str → List Str → List Str → Option (List HItem × List Str)
  | _, _, [], acc => some ([], acc)
  | 0, _, _ :: _, _ => none
  | fuel + 1, sigNames, l :: ls, acc =>
    match findTarget sigNames l with
    | some name =>
      match captureSig2c ls with
      | none => none
      | some (c, r) =>
        (pass2Go fuel sigNames r (insertIfAbsent acc name)).map
          (fun (items, needed) => (.reg (l :: c) :: items, needed))
    | none =>
      (pass2Go fuel sigNames ls acc).map
        (fun (items, needed) => (.keep l :: items, needed))

/-- Pass 2 over a whole (original) header. -/
def pass2Scan (sigNames : List Str) (lines : List Str) : Option (List HItem × List Str) :=
  pass2Go lines.length sigNames lines []

/-- Result of the emission loop over `signatures_needed`. -/
inductive EmitRes where
  | ok : List (Str × Str × Str) → EmitRes
  | fatal : Str → EmitRes
  | crash : EmitRes
deriving DecidableEq

/-- The `for name in list(signatures_needed)` loop (lines 297-395): one
device/kernel pair per needed name, looked up in the pass-1 `signatures`
registry (paired with its recorded tag positions).  A `sys.exit` or an
exception aborts the whole run. -/
def emitPairs (sigs : List (Str × Str × List Nat)) : List Str → EmitRes
  | [] => .ok []
  | n :: ns =>
    match sigs.find? (fun p => p.1 = n) with
    | none => .crash
    | some (_, sig0, pos) =>
      match processSignature n sig0 pos with
      | .ok dev ker =>
        match emitPairs sigs ns with
        | .ok ps => .ok ((n, dev, ker) :: ps)
        | r => r
      | .fatal m => .fatal m
      | .crash => .crash

/-- Number of non-overlapping occurrences of `pat` in `s` (one less than the
number of split fragments). -/
def countOccur (s pat : Str) : Nat := (pySplitStr s pat).length - 1

/-! ### Basic lemmas about the string primitives -/

theorem isPrefixOf_append_self (l t : Str) : l.isPrefixOf (l ++ t) = true := by
  simp

theorem pyFindGo_append_isSome (a b c : Str) : (pyFindGo b (a ++ (b ++ c))).isSome = true := by
  induction a with
  | nil =>
    cases b with
    | nil =>
      cases c with
      | nil => rfl
      | cons x xs => simp [pyFindGo]
    | cons p ps => simp [pyFindGo, List.prefix_append]
  | cons x xs ih =>
    simp only [List.cons_append, pyFindGo]
    split
    · simp
    · simpa using ih

/-- A middle segment is always found by `in`. -/
theorem pyContains_middle (a b c : Str) : pyContains (a ++ (b ++ c)) b = true := by
  simpa [pyContains, pyFind] using pyFindGo_append_isSome a b c

theorem pySplitStrGo_ne_nil (pat : Str) (fuel : Nat) (s : Str) :
    pySplitStrGo pat fuel s ≠ [] := by
  match fuel, s with
  | _, [] => simp [pySplitStrGo]
  | 0, _ :: _ => simp [pySplitStrGo]
  | fuel + 1, c :: rest =>
    simp only [pySplitStrGo]
    split
    · simp
    · split <;> simp

theorem joinSep_nil_cons (sep : Str) (l : List Str) (h : l ≠ []) :
    joinSep sep ([] :: l) = sep ++ joinSep sep l := by
  cases l with
  | nil => exact absurd rfl h
  | cons y ys => simp [joinSep]

/-- Worker version of `replace = join ∘ split`. -/
theorem pyReplaceGo_eq_joinSep (pat rep : Str) :
    ∀ fuel s, pyReplaceGo pat rep fuel s = joinSep rep (pySplitStrGo pat fuel s) := by
  intro fuel
  induction fuel with
  | zero =>
    intro s
    cases s <;> simp [pyReplaceGo, pySplitStrGo, joinSep]
  | succ fuel ih =>
    intro s
    cases s with
    | nil => simp [pyReplaceGo, pySplitStrGo, joinSep]
    | cons c rest =>
      simp only [pyReplaceGo, pySplitStrGo]
      split
      · rw [joinSep_nil_cons _ _ (pySplitStrGo_ne_nil _ _ _), ih]
      · cases hsp : pySplitStrGo pat fuel rest with
        | nil => exact absurd hsp (pySplitStrGo_ne_nil _ _ _)
        | cons f fs =>
          rw [ih, hsp]
          cases fs with
          | nil => simp [joinSep]
          | cons f2 fs2 => simp [joinSep]

/-- Python's `replace` rewrites every non-overlapping occurrence: the result
is the fragment list of `split` joined with the replacement. -/
theorem pyReplace_eq_joinSep (s pat rep : Str) (h : pat ≠ []) :
    pyReplace s pat rep = joinSep rep (pySplitStr s pat) := by
  simp only [pyReplace, pySplitStr, if_neg h]
  exact pyReplaceGo_eq_joinSep pat rep s.length s

/-! ### Occurrence-freeness of `replace`: general containment lemmas -/

/-- Characterisation of `pat in s`: the pattern is a prefix of some suffix. -/
theorem pyContains_iff {s pat : Str} :
    pyContains s pat = true ↔ ∃ i, pat.isPrefixOf (s.drop i) = true := by
  induction s with
  | nil =>
    cases pat with
    | nil =>
      constructor
      · intro _
        exact ⟨0, rfl⟩
      · intro _
        decide
    | cons c cs =>
      simp only [pyContains, pyFind, pyFindGo]
      constructor
      · intro h
        rw [if_neg (List.cons_ne_nil c cs)] at h
        cases h
      · rintro ⟨i, hi⟩
        rw [List.drop_nil] at hi
        simp [List.isPrefixOf] at hi
  | cons c rest ih =>
    constructor
    · intro h
      simp only [pyContains, pyFind, pyFindGo] at h
      by_cases hpre : pat.isPrefixOf (c :: rest) = true
      · exact ⟨0, by simpa using hpre⟩
      · rw [if_neg hpre] at h
        have h' : pyContains rest pat = true := by
          simp only [pyContains, pyFind]
          cases hfg : pyFindGo pat rest with
          | none => simp [hfg] at h
          | some k => rfl
        obtain ⟨i, hi⟩ := ih.mp h'
        exact ⟨i + 1, by simpa using hi⟩
    · rintro ⟨i, hi⟩
      simp only [pyContains, pyFind, pyFindGo]
      by_cases hpre : pat.isPrefixOf (c :: rest) = true
      · rw [if_pos hpre]
        rfl
      · rw [if_neg hpre]
        cases i with
        | zero =>
          rw [List.drop_zero] at hi
          exact absurd hi hpre
        | succ i' =>
          rw [List.drop_succ_cons] at hi
          have h' : pyContains rest pat = true := ih.mpr ⟨i', hi⟩
          simp only [pyContains, pyFind] at h'
          cases hfg : pyFindGo pat rest with
          | none => rw [hfg] at h'; cases h'
          | some k => rfl

theorem prefix_of_append_left {p a b : Str} (h : p <+: a ++ b) (hl : p.length ≤ a.length) :
    p <+: a := by
  have hp := List.prefix_iff_eq_take.mp h
  rw [List.take_append_of_le_length hl] at hp
  rw [hp]
  exact List.take_prefix _ _

/-- An occurrence inside a concatenation lies in the left part, lies in the
right part, or straddles the junction. -/
theorem pyContains_append_cases {a b pat : Str} (h : pyContains (a ++ b) pat = true) :
    pyContains a pat = true ∨ pyContains b pat = true ∨
      ∃ j, 0 < j ∧ j < pat.length ∧ (pat.take j).isSuffixOf a = true ∧
        (pat.drop j).isPrefixOf b = true := by
  obtain ⟨i, hi⟩ := pyContains_iff.mp h
  rw [List.isPrefixOf_iff_prefix] at hi
  by_cases hia : a.length ≤ i
  · right; left
    apply pyContains_iff.mpr
    refine ⟨i - a.length, ?_⟩
    rw [List.isPrefixOf_iff_prefix]
    have hdrop : List.drop i (a ++ b) = List.drop (i - a.length) b := by
      rw [List.drop_append_eq_append_drop, List.drop_eq_nil_of_le hia, List.nil_append]
    rwa [hdrop] at hi
  · push_neg at hia
    have hsplit : List.drop i (a ++ b) = List.drop i a ++ b := by
      rw [List.drop_append_eq_append_drop]
      have h0 : i - a.length = 0 := by omega
      rw [h0, List.drop_zero]
    rw [hsplit] at hi
    by_cases hlen : pat.length ≤ a.length - i
    · left
      apply pyContains_iff.mpr
      refine ⟨i, ?_⟩
      rw [List.isPrefixOf_iff_prefix]
      exact prefix_of_append_left hi (by rw [List.length_drop]; exact hlen)
    · push_neg at hlen
      have htake : pat.take (a.length - i) = List.drop i a := by
        have h1 := List.prefix_iff_eq_take.mp hi
        calc pat.take (a.length - i)
            = (List.take pat.length (List.drop i a ++ b)).take (a.length - i) := by rw [← h1]
          _ = List.take (a.length - i) (List.drop i a ++ b) := by
              rw [List.take_take]
              congr 1
              omega
          _ = List.take (a.length - i) (List.drop i a) :=
              List.take_append_of_le_length (by simp)
          _ = List.drop i a := List.take_of_length_le (by simp)
      right; right
      refine ⟨a.length - i, by omega, hlen, ?_, ?_⟩
      · rw [List.isSuffixOf_iff_suffix, htake]
        exact List.drop_suffix i a
      · rw [List.isPrefixOf_iff_prefix]
        have h2 := hi
        rw [← List.take_append_drop (a.length - i) pat, htake] at h2
        exact (List.prefix_append_right_inj (List.drop i a)).mp h2

/-- If neither part contains the pattern and every junction split fails on
one side, the concatenation does not contain it. -/
theorem not_contains_append {a b pat : Str}
    (ha : pyContains a pat = false) (hb : pyContains b pat = false)
    (hj : ∀ j, j < pat.length → 0 < j →
      ((pat.take j).isSuffixOf a = false ∨ (pat.drop j).isPrefixOf b = false)) :
    pyContains (a ++ b) pat = false := by
  cases hc : pyContains (a ++ b) pat with
  | false => rfl
  | true =>
    exfalso
    rcases pyContains_append_cases hc with h | h | ⟨j, hj0, hjl, hs, hp⟩
    · rw [ha] at h; cases h
    · rw [hb] at h; cases h
    · rcases hj j hjl hj0 with hx | hx
      · rw [hs] at hx; cases hx
      · rw [hp] at hx; cases hx

/-- The first fragment of the fuelled splitter is a prefix of the text. -/
theorem pySplitStrGo_head_prefix (pat : Str) :
    ∀ (fuel : Nat) (s : Str), ∃ f fs, pySplitStrGo pat fuel s = f :: fs ∧ f <+: s := by
  intro fuel
  induction fuel with
  | zero =>
    intro s
    cases s with
    | nil => exact ⟨[], [], rfl, List.nil_prefix⟩
    | cons c cs => exact ⟨c :: cs, [], rfl, List.prefix_refl _⟩
  | succ fuel ih =>
    intro s
    cases s with
    | nil => exact ⟨[], [], rfl, List.nil_prefix⟩
    | cons c rest =>
      by_cases hpre : pat.isPrefixOf (c :: rest) = true
      · exact ⟨[], pySplitStrGo pat fuel (List.drop pat.length (c :: rest)),
          by simp only [pySplitStrGo, if_pos hpre], List.nil_prefix⟩
      · obtain ⟨f0, fs0, hrec, hp0⟩ := ih rest
        refine ⟨c :: f0, fs0, ?_, ?_⟩
        · simp only [pySplitStrGo, if_neg hpre, hrec]
        · exact List.cons_prefix_cons.mpr ⟨rfl, hp0⟩

/-- Every fragment of the fuelled splitter is an infix of the text. -/
theorem pySplitStrGo_infix_of_mem (pat : Str) :
    ∀ (fuel : Nat) (s f : Str), f ∈ pySplitStrGo pat fuel s → f <:+: s := by
  intro fuel
  induction fuel with
  | zero =>
    intro s f hf
    cases s with
    | nil =>
      simp only [pySplitStrGo, List.mem_singleton] at hf
      subst hf
      exact List.nil_infix
    | cons c cs =>
      simp only [pySplitStrGo, List.mem_singleton] at hf
      subst hf
      exact List.infix_refl _
  | succ fuel ih =>
    intro s f hf
    cases s with
    | nil =>
      simp only [pySplitStrGo, List.mem_singleton] at hf
      subst hf
      exact List.nil_infix
    | cons c rest =>
      by_cases hpre : pat.isPrefixOf (c :: rest) = true
      · rw [show pySplitStrGo pat (fuel + 1) (c :: rest) =
            [] :: pySplitStrGo pat fuel (List.drop pat.length (c :: rest)) from by
          simp only [pySplitStrGo, if_pos hpre]] at hf
        rcases List.mem_cons.mp hf with rfl | hf'
        · exact List.nil_infix
        · exact (ih _ f hf').trans (List.drop_suffix _ _).isInfix
      · obtain ⟨f0, fs0, hrec, hp0⟩ := pySplitStrGo_head_prefix pat fuel rest
        rw [show pySplitStrGo pat (fuel + 1) (c :: rest) = (c :: f0) :: fs0 from by
          simp only [pySplitStrGo, if_neg hpre, hrec]] at hf
        rcases List.mem_cons.mp hf with rfl | hf'
        · exact (List.cons_prefix_cons.mpr ⟨rfl, hp0⟩).isInfix
        · have hmem : f ∈ pySplitStrGo pat fuel rest := by
            rw [hrec]
            exact List.mem_cons_of_mem _ hf'
          exact List.infix_cons (ih rest f hmem)

/-- With enough fuel, no fragment of the splitter still contains the
pattern: `split` removes every occurrence. -/
theorem pySplitStrGo_frag_free {pat : Str} (hpat : pat ≠ []) :
    ∀ (fuel : Nat) (s : Str), s.length ≤ fuel →
      ∀ f ∈ pySplitStrGo pat fuel s, pyContains f pat = false := by
  have hnil : pyContains [] pat = false := by
    cases pat with
    | nil => exact absurd rfl hpat
    | cons c cs => simp [pyContains, pyFind, pyFindGo]
  intro fuel
  induction fuel with
  | zero =>
    intro s hlen f hf
    cases s with
    | nil =>
      simp only [pySplitStrGo, List.mem_singleton] at hf
      subst hf
      exact hnil
    | cons c cs => simp at hlen
  | succ fuel ih =>
    intro s hlen f hf
    cases s with
    | nil =>
      simp only [pySplitStrGo, List.mem_singleton] at hf
      subst hf
      exact hnil
    | cons c rest =>
      have hrest : rest.length ≤ fuel := by
        simp only [List.length_cons] at hlen
        omega
      by_cases hpre : pat.isPrefixOf (c :: rest) = true
      · rw [show pySplitStrGo pat (fuel + 1) (c :: rest) =
            [] :: pySplitStrGo pat fuel (List.drop pat.length (c :: rest)) from by
          simp only [pySplitStrGo, if_pos hpre]] at hf
        rcases List.mem_cons.mp hf with rfl | hf'
        · exact hnil
        · refine ih (List.drop pat.length (c :: rest)) ?_ f hf'
          have hlen1 : 1 ≤ pat.length := by
            cases pat with
            | nil => exact absurd rfl hpat
            | cons p ps => simp
          rw [List.length_drop]
          simp only [List.length_cons] at hlen ⊢
          omega
      · obtain ⟨f0, fs0, hrec, hp0⟩ := pySplitStrGo_head_prefix pat fuel rest
        rw [show pySplitStrGo pat (fuel + 1) (c :: rest) = (c :: f0) :: fs0 from by
          simp only [pySplitStrGo, if_neg hpre, hrec]] at hf
        rcases List.mem_cons.mp hf with rfl | hf'
        · have hf0 : pyContains f0 pat = false :=
            ih rest hrest f0 (by rw [hrec]; exact List.mem_cons_self _ _)
          have hnp : pat.isPrefixOf (c :: f0) = false := by
            cases hb : pat.isPrefixOf (c :: f0) with
            | false => rfl
            | true =>
              exfalso
              apply hpre
              rw [List.isPrefixOf_iff_prefix] at hb ⊢
              exact hb.trans (List.cons_prefix_cons.mpr ⟨rfl, hp0⟩)
          simp only [pyContains, pyFind, pyFindGo]
          rw [if_neg (by simp [hnp])]
          cases hfg : pyFindGo pat f0 with
          | some j =>
            have hc := hf0
            simp [pyContains, pyFind, hfg] at hc
          | none =>
            rfl
        · have hmem : f ∈ pySplitStrGo pat fuel rest := by
            rw [hrec]
            exact List.mem_cons_of_mem _ hf'
          exact ih rest hrest f hmem

/-- Containment is monotone under infix: an infix of an occurrence-free
string is occurrence-free. -/
theorem pyContains_eq_false_of_infix {t s pat : Str} (hinf : t <:+: s)
    (hs : pyContains s pat = false) : pyContains t pat = false := by
  cases hc : pyContains t pat with
  | false => rfl
  | true =>
    exfalso
    obtain ⟨i, hi⟩ := pyContains_iff.mp hc
    obtain ⟨u, v, huv⟩ := hinf
    have hcon : pyContains s pat = true := by
      apply pyContains_iff.mpr
      refine ⟨u.length + i, ?_⟩
      rw [← huv, List.append_assoc, List.drop_append_eq_append_drop,
        List.drop_eq_nil_of_le (by omega), List.nil_append]
      have h2 : u.length + i - u.length = i := by omega
      rw [h2, List.drop_append_eq_append_drop]
      rw [List.isPrefixOf_iff_prefix] at hi ⊢
      exact hi.trans (List.prefix_append _ _)
    rw [hs] at hcon
    cases hcon

/-- Joining pattern-free fragments with a pattern-free separator at least as
long as the pattern, whose junctions admit no straddling occurrence, gives a
pattern-free string. -/
theorem joinSep_free {pat rep : Str} (hpat : pat ≠ [])
    (hlen : pat.length ≤ rep.length)
    (hrep : pyContains rep pat = false)
    (hsuf : ∀ j, j < pat.length → 0 < j → (pat.take j).isSuffixOf rep = false)
    (hpre : ∀ j, j < pat.length → 0 < j → (pat.drop j).isPrefixOf rep = false) :
    ∀ frags : List Str, (∀ f ∈ frags, pyContains f pat = false) →
      pyContains (joinSep rep frags) pat = false := by
  have hnil : pyContains [] pat = false := by
    cases pat with
    | nil => exact absurd rfl hpat
    | cons c cs => simp [pyContains, pyFind, pyFindGo]
  intro frags
  induction frags with
  | nil =>
    intro _
    exact hnil
  | cons f rest ih =>
    intro hf
    cases rest with
    | nil =>
      exact hf f (List.mem_cons_self _ _)
    | cons f2 rest2 =>
      have hJ : pyContains (joinSep rep (f2 :: rest2)) pat = false :=
        ih (fun x hx => hf x (List.mem_cons_of_mem _ hx))
      have hjoin : joinSep rep (f :: f2 :: rest2) = f ++ (rep ++ joinSep rep (f2 :: rest2)) := by
        show f ++ rep ++ joinSep rep (f2 :: rest2) = _
        rw [List.append_assoc]
      rw [hjoin]
      refine not_contains_append (hf f (List.mem_cons_self _ _)) ?_ ?_
      · refine not_contains_append hrep hJ ?_
        intro j hjl hj0
        exact Or.inl (hsuf j hjl hj0)
      · intro j hjl hj0
        right
        cases hb : (pat.drop j).isPrefixOf (rep ++ joinSep rep (f2 :: rest2)) with
        | false => rfl
        | true =>
          exfalso
          have hpr : (pat.drop j).isPrefixOf rep = true := by
            rw [List.isPrefixOf_iff_prefix] at hb ⊢
            apply prefix_of_append_left hb
            rw [List.length_drop]
            omega
          rw [hpre j hjl hj0] at hpr
          cases hpr

/-- Python's `replace` leaves no occurrence of the pattern behind when the
replacement is pattern-free, at least as long as the pattern, and admits no
straddling occurrence at either end. -/
theorem pyReplace_self_free {s pat rep : Str} (hpat : pat ≠ [])
    (hlen : pat.length ≤ rep.length)
    (hrep : pyContains rep pat = false)
    (hsuf : ∀ j, j < pat.length → 0 < j → (pat.take j).isSuffixOf rep = false)
    (hpre : ∀ j, j < pat.length → 0 < j → (pat.drop j).isPrefixOf rep = false) :
    pyContains (pyReplace s pat rep) pat = false := by
  rw [pyReplace_eq_joinSep s pat rep hpat]
  apply joinSep_free hpat hlen hrep hsuf hpre
  intro f hfmem
  unfold pySplitStr at hfmem
  rw [if_neg hpat] at hfmem
  exact pySplitStrGo_frag_free hpat s.length s le_rfl f hfmem

/-- Replacing one pattern preserves the absence of another, when the
replacement text cannot contain or help straddle the other pattern. -/
theorem pyReplace_preserves_free {s pat rep pat2 : Str} (hpat : pat ≠ [])
    (hs : pyContains s pat2 = false)
    (hpat2 : pat2 ≠ [])
    (hlen : pat2.length ≤ rep.length)
    (hrep : pyContains rep pat2 = false)
    (hsuf : ∀ j, j < pat2.length → 0 < j → (pat2.take j).isSuffixOf rep = false)
    (hpre : ∀ j, j < pat2.length → 0 < j → (pat2.drop j).isPrefixOf rep = false) :
    pyContains (pyReplace s pat rep) pat2 = false := by
  rw [pyReplace_eq_joinSep s pat rep hpat]
  apply joinSep_free hpat2 hlen hrep hsuf hpre
  intro f hfmem
  unfold pySplitStr at hfmem
  rw [if_neg hpat] at hfmem
  exact pyContains_eq_false_of_infix (pySplitStrGo_infix_of_mem pat s.length s f hfmem) hs

/-! ### Lemmas about the capture loops -/

theorem captureCall3_src {ls : List Str} {b : Str} {c r : List Str}
    (h : captureCall3 ls = some (b, c, r)) : c ++ r = ls := by
  induction ls generalizing b c r with
  | nil => simp [captureCall3] at h
  | cons l ls ih =>
    simp only [captureCall3] at h
    split at h
    · cases h; rfl
    · cases hrec : captureCall3 ls with
      | none => rw [hrec] at h; simp at h
      | some v =>
        obtain ⟨b', c', r'⟩ := v
        rw [hrec] at h
        simp only [Option.map_some'] at h
        cases h
        simpa using ih hrec

theorem captureCall3_consumed_ne_nil {ls : List Str} {b : Str} {c r : List Str}
    (h : captureCall3 ls = some (b, c, r)) : c ≠ [] := by
  cases ls with
  | nil => simp [captureCall3] at h
  | cons l ls =>
    simp only [captureCall3] at h
    split at h
    · cases h; simp
    · cases hrec : captureCall3 ls with
      | none => rw [hrec] at h; simp at h
      | some v =>
        obtain ⟨b', c', r'⟩ := v
        rw [hrec] at h
        simp only [Option.map_some'] at h
        cases h
        simp

theorem captureCall3_buf {ls : List Str} {b : Str} {c r : List Str}
    (h : captureCall3 ls = some (b, c, r)) : b = bufOfConsumed c := by
  induction ls generalizing b c r with
  | nil => simp [captureCall3] at h
  | cons l ls ih =>
    simp only [captureCall3] at h
    split at h
    · cases h; rfl
    · cases hrec : captureCall3 ls with
      | none => rw [hrec] at h; simp at h
      | some v =>
        obtain ⟨b', c', r'⟩ := v
        rw [hrec] at h
        simp only [Option.map_some'] at h
        cases h
        have hc' : c' ≠ [] := captureCall3_consumed_ne_nil hrec
        cases c' with
        | nil => exact absurd rfl hc'
        | cons x xs => simp [bufOfConsumed, ih hrec]

theorem captureCall3_eq_none_iff (ls : List Str) :
    captureCall3 ls = none ↔ ∀ l ∈ ls, endsWithSemi l = false := by
  induction ls with
  | nil => simp [captureCall3]
  | cons l ls ih =>
    simp only [captureCall3]
    split
    · rename_i hsemi
      simp only [reduceCtorEq, false_iff, not_forall]
      exact ⟨l, ⟨by simp, by simp [hsemi]⟩⟩
    · rename_i hsemi
      constructor
      · intro h
        intro x hx
        rcases List.mem_cons.mp hx with rfl | hx'
        · simpa using hsemi
        · exact (ih.mp (by simpa using h)) x hx'
      · intro h
        have := ih.mpr (fun x hx => h x (List.mem_cons_of_mem _ hx))
        simp [this]

theorem captureSig2c_src {ls : List Str} {c r : List Str}
    (h : captureSig2c ls = some (c, r)) : c ++ r = ls := by
  induction ls generalizing c r with
  | nil => simp [captureSig2c] at h
  | cons l ls ih =>
    simp only [captureSig2c] at h
    split at h
    · cases h; rfl
    · cases hrec : captureSig2c ls with
      | none => rw [hrec] at h; simp at h
      | some v =>
        obtain ⟨c', r'⟩ := v
        rw [hrec] at h
        simp only [Option.map_some'] at h
        cases h
        simpa using ih hrec

theorem captureSig2c_eq_none_iff (ls : List Str) :
    captureSig2c ls = none ↔ ∀ l ∈ ls, endsWithSemi l = false := by
  induction ls with
  | nil => simp [captureSig2c]
  | cons l ls ih =>
    simp only [captureSig2c]
    split
    · rename_i hsemi
      simp only [reduceCtorEq, false_iff, not_forall]
      exact ⟨l, ⟨by simp, by simp [hsemi]⟩⟩
    · rename_i hsemi
      constructor
      · intro h x hx
        rcases List.mem_cons.mp hx with rfl | hx'
        · simpa using hsemi
        · exact (ih.mp (by simpa using h)) x hx'
      · intro h
        have := ih.mpr (fun x hx => h x (List.mem_cons_of_mem _ hx))
        simp [this]

theorem captureSig1_eq_none_iff (l : Str) (ls : List Str) :
    captureSig1 l ls = none ↔
      (endsWithSemi l = false ∧ ∀ l2 ∈ ls, endsWithSemi l2 = false) := by
  induction ls generalizing l with
  | nil =>
    simp only [captureSig1]
    split
    · rename_i hsemi
      simp [hsemi]
    · rename_i hsemi
      simp [Bool.not_eq_true] at hsemi
      simp [hsemi]
  | cons l2 ls2 ih =>
    simp only [captureSig1]
    split
    · rename_i hsemi
      simp [hsemi]
    · rename_i hsemi
      simp only [Bool.not_eq_true] at hsemi
      cases hrec : captureSig1 l2 ls2 with
      | none =>
        have := (ih l2).mp hrec
        simp only [Option.map_none, true_iff, hsemi, true_and]
        constructor
        · intro _ x hx
          rcases List.mem_cons.mp hx with rfl | hx'
          · exact this.1
          · exact this.2 x hx'
        · intro _; rfl
      | some v =>
        obtain ⟨b, r⟩ := v
        have hne : ¬ captureSig1 l2 ls2 = none := by simp [hrec]
        rw [(ih l2).not] at hne
        simp only [hrec, Option.map_some', reduceCtorEq, false_iff, hsemi, true_and, not_forall]
        rw [not_and_or] at hne
        rcases hne with hne | hne
        · exact ⟨l2, ⟨by simp, hne⟩⟩
        · push_neg at hne
          obtain ⟨x, hx, hx2⟩ := hne
          exact ⟨x, ⟨List.mem_cons_of_mem _ hx, by simpa using hx2⟩⟩

/-! ### First-match characterisation of `fortran_binding_re` search -/

theorem bindingSearch_eq_some_iff (s g : Str) :
    bindingSearch s = some g ↔
      ∃ i, matchVoidAt (s.drop i) = some g ∧ ∀ j, j < i → matchVoidAt (s.drop j) = none := by
  induction s with
  | nil =>
    simp only [bindingSearch, List.drop_nil]
    constructor
    · intro h; cases h
    · rintro ⟨i, hi, -⟩
      rw [show matchVoidAt [] = none from by decide] at hi
      cases hi
  | cons c rest ih =>
    simp only [bindingSearch]
    cases hm : matchVoidAt (c :: rest) with
    | some g' =>
      constructor
      · intro h
        cases h
        exact ⟨0, by simpa using hm, by omega⟩
      · rintro ⟨i, hi, hmin⟩
        cases i with
        | zero => simp only [List.drop_zero] at hi; rw [hm] at hi; cases hi; rfl
        | succ i' =>
          have := hmin 0 (Nat.succ_pos _)
          simp only [List.drop_zero] at this
          rw [hm] at this; cases this
    | none =>
      rw [ih]
      constructor
      · rintro ⟨i, hi, hmin⟩
        refine ⟨i + 1, by simpa using hi, ?_⟩
        intro j hj
        cases j with
        | zero => simpa using hm
        | succ j' =>
          simp only [List.drop_succ_cons]
          exact hmin j' (by omega)
      · rintro ⟨i, hi, hmin⟩
        cases i with
        | zero => simp only [List.drop_zero] at hi; rw [hm] at hi; cases hi
        | succ i' =>
          refine ⟨i', by simpa using hi, ?_⟩
          intro j hj
          have := hmin (j + 1) (by omega)
          simpa using this

/-! ### Bound-parameter characterisation of the rewriter loop -/

theorem tagLoop_var {args : List Str} {n : Nat} :
    ∀ {ps : List Nat} {acc acc' : Str × Str × Str × List Str},
      tagLoop args n ps acc = some acc' →
      (n ∈ ps → tagVarOf args n = some acc'.1) ∧ (n ∉ ps → acc'.1 = acc.1) := by
  intro ps
  induction ps with
  | nil =>
    intro acc acc' h
    simp only [tagLoop] at h
    cases h
    simp
  | cons p ps ih =>
    intro acc acc' h
    obtain ⟨var, fsig, dsig, ivars⟩ := acc
    simp only [tagLoop] at h
    split at h
    · rename_i hnp
      subst hnp
      obtain ⟨arg, hget, h⟩ := Option.bind_eq_some.mp h
      obtain ⟨var2, hlast, h⟩ := Option.bind_eq_some.mp h
      have := ih h
      constructor
      · intro _
        by_cases hn : n ∈ ps
        · exact this.1 hn
        · rw [this.2 hn]
          unfold tagVarOf
          rw [hget]
          simp [hlast]
      · intro hn
        exact absurd (List.mem_cons_self n ps) hn
    · rename_i hnp
      have := ih h
      constructor
      · intro hmem
        rcases List.mem_cons.mp hmem with rfl | hmem'
        · exact absurd rfl hnp
        · exact this.1 hmem'
      · intro hn
        exact this.2 (fun hmem' => hn (List.mem_cons_of_mem _ hmem'))

theorem applyFlags_hasLo (acc : Str × Str × Str × List Str) (st : LoopSt) :
    (applyFlags acc st).hasLo = (st.hasLo || decide (acc.1 = str "lo")) := by
  unfold applyFlags
  by_cases hlo : acc.1 = str "lo"
  · rw [if_pos hlo]
    simp [hlo]
  · rw [if_neg hlo]
    have hdec : decide (acc.1 = str "lo") = false := decide_eq_false hlo
    by_cases hhi : acc.1 = str "hi"
    · rw [if_pos hhi]
      simp [hdec]
    · rw [if_neg hhi]
      simp [hdec]

theorem applyFlags_hasHi (acc : Str × Str × Str × List Str) (st : LoopSt) :
    (applyFlags acc st).hasHi = (st.hasHi || decide (acc.1 = str "hi")) := by
  unfold applyFlags
  by_cases hlo : acc.1 = str "lo"
  · rw [if_pos hlo]
    have hdec : decide (acc.1 = str "hi") = false :=
      decide_eq_false (by rw [hlo]; decide)
    simp [hdec]
  · rw [if_neg hlo]
    by_cases hhi : acc.1 = str "hi"
    · rw [if_pos hhi]
      simp [hhi]
    · rw [if_neg hhi]
      simp [decide_eq_false hhi]

theorem legacyBranch_fst {var1 : Str} {st : LoopSt} {acc : Str × Str × Str × List Str}
    (h : legacyBranch var1 st = some acc) : acc.1 = var1 := by
  unfold legacyBranch at h
  split at h
  · cases h; rfl
  · split at h <;> (cases h; rfl)

/-- A successful parameter step raises exactly the flag of the bound name
the Python loop checks (`boundVarName`). -/
theorem paramStep_flags {sig0 : Str} {pos : List Nat} {n : Nat} {v : Str}
    {st st' : LoopSt} (h : paramStep sig0 pos n v st = some st') :
    st'.hasLo = (st.hasLo || decide (boundVarName sig0 pos n v = some (str "lo"))) ∧
      st'.hasHi = (st.hasHi || decide (boundVarName sig0 pos n v = some (str "hi"))) := by
  unfold paramStep at h
  obtain ⟨last, hlast, h⟩ := Option.bind_eq_some.mp h
  obtain ⟨args, hargs, h⟩ := Option.bind_eq_some.mp h
  obtain ⟨acc, hacc, hst'⟩ := Option.map_eq_some'.mp h
  have hbv : boundVarName sig0 pos n v = some acc.1 := by
    unfold boundVarName
    rw [hlast, Option.some_bind]
    by_cases hpos : pos = []
    · rw [if_pos hpos]
      rw [if_pos hpos] at hacc
      rw [legacyBranch_fst hacc]
    · rw [if_neg hpos]
      rw [if_neg hpos] at hacc
      have hvar := tagLoop_var hacc
      by_cases hn : n ∈ pos
      · rw [if_pos hn, hargs, Option.some_bind]
        exact hvar.1 hn
      · rw [if_neg hn, hvar.2 hn]
  rw [hbv, ← hst']
  constructor
  · rw [applyFlags_hasLo]
    simp
  · rw [applyFlags_hasHi]
    simp

/-- Flag characterisation of the whole parameter loop: a flag is raised
exactly when some parameter's bound name is the reserved identifier. -/
theorem paramLoop_flags {sig0 : Str} {pos : List Nat} :
    ∀ (vs : List Str) (n : Nat) (st st' : LoopSt),
      paramLoop sig0 pos n vs st = some st' →
      st'.hasLo = (st.hasLo ||
        (vs.enumFrom n).any (fun p => decide (boundVarName sig0 pos p.1 p.2 = some (str "lo")))) ∧
      st'.hasHi = (st.hasHi ||
        (vs.enumFrom n).any (fun p => decide (boundVarName sig0 pos p.1 p.2 = some (str "hi")))) := by
  intro vs
  induction vs with
  | nil =>
    intro n st st' h
    simp only [paramLoop] at h
    cases h
    simp [List.enumFrom]
  | cons v vs ih =>
    intro n st st' h
    simp only [paramLoop] at h
    obtain ⟨st1, hst1, h⟩ := Option.bind_eq_some.mp h
    have hstep := paramStep_flags hst1
    have hrest := ih (n + 1) st1 st' h
    simp only [List.enumFrom, List.any_cons]
    constructor
    · rw [hrest.1, hstep.1]
      simp [Bool.or_assoc]
    · rw [hrest.2, hstep.2]
      simp [Bool.or_assoc]

theorem applyFlags_fsig (acc : Str × Str × Str × List Str) (st : LoopSt) :
    (applyFlags acc st).fsig = acc.2.1 := by
  unfold applyFlags
  split
  · rfl
  · split
    · rfl
    · rfl

theorem applyFlags_dsig (acc : Str × Str × Str × List Str) (st : LoopSt) :
    (applyFlags acc st).dsig = acc.2.2.1 := by
  unfold applyFlags
  split
  · rfl
  · split
    · rfl
    · rfl

/-- Invariant carried through the untagged parameter loop: once a bound flag
is raised, the kernel signature no longer contains the corresponding raw
pointer form, and the device signature is never touched. -/
def KInv (d0 : Str) (st : LoopSt) : Prop :=
  (st.hasLo = true → pyContains st.fsig (str "const int* lo") = false) ∧
  (st.hasHi = true → pyContains st.fsig (str "const int* hi") = false) ∧
  st.dsig = d0

/-- One untagged parameter step preserves the invariant: the legacy branch
of lines 357-364 replaces exactly the raw pointer form whose flag it raises,
the three-scalar replacement text cannot contain or help straddle either raw
form, and the device signature is forwarded unchanged. -/
theorem paramStep_untagged_KInv {sig0 : Str} {n : Nat} {v : Str} {st st' : LoopSt}
    {d0 : Str} (h : paramStep sig0 [] n v st = some st') (hinv : KInv d0 st) :
    KInv d0 st' := by
  obtain ⟨hLo, hHi, hD⟩ := hinv
  unfold paramStep at h
  obtain ⟨last, hlast, h⟩ := Option.bind_eq_some.mp h
  obtain ⟨args, hargs, h⟩ := Option.bind_eq_some.mp h
  rw [if_pos rfl] at h
  obtain ⟨acc, hacc, hst'⟩ := Option.map_eq_some'.mp h
  subst hst'
  unfold legacyBranch at hacc
  by_cases hlo : procToken last = str "lo"
  · rw [if_pos hlo] at hacc
    cases hacc
    refine ⟨?_, ?_, ?_⟩
    · intro _
      rw [applyFlags_fsig]
      show pyContains (pyReplace st.fsig (str "const int* lo") (tripleScalar (str "lo")))
        (str "const int* lo") = false
      exact pyReplace_self_free (by decide) (by decide) (by decide) (by decide) (by decide)
    · intro hh
      rw [applyFlags_hasHi] at hh
      have hne : decide ((procToken last,
          pyReplace st.fsig (str "const int* lo") (tripleScalar (str "lo")),
          st.dsig, st.ivars ++ [str "lo"]).1 = str "hi") = false := by
        refine decide_eq_false ?_
        show ¬ procToken last = str "hi"
        rw [hlo]
        decide
      rw [hne, Bool.or_false] at hh
      rw [applyFlags_fsig]
      show pyContains (pyReplace st.fsig (str "const int* lo") (tripleScalar (str "lo")))
        (str "const int* hi") = false
      exact pyReplace_preserves_free (by decide) (hHi hh) (by decide) (by decide)
        (by decide) (by decide) (by decide)
    · rw [applyFlags_dsig]
      exact hD
  · rw [if_neg hlo] at hacc
    by_cases hhi : procToken last = str "hi"
    · rw [if_pos hhi] at hacc
      cases hacc
      refine ⟨?_, ?_, ?_⟩
      · intro hh
        rw [applyFlags_hasLo] at hh
        have hne : decide ((procToken last,
            pyReplace st.fsig (str "const int* hi") (tripleScalar (str "hi")),
            st.dsig, st.ivars ++ [str "hi"]).1 = str "lo") = false := by
          refine decide_eq_false ?_
          show ¬ procToken last = str "lo"
          rw [hhi]
          decide
        rw [hne, Bool.or_false] at hh
        rw [applyFlags_fsig]
        show pyContains (pyReplace st.fsig (str "const int* hi") (tripleScalar (str "hi")))
          (str "const int* lo") = false
        exact pyReplace_preserves_free (by decide) (hLo hh) (by decide) (by decide)
          (by decide) (by decide) (by decide)
      · intro _
        rw [applyFlags_fsig]
        show pyContains (pyReplace st.fsig (str "const int* hi") (tripleScalar (str "hi")))
          (str "const int* hi") = false
        exact pyReplace_self_free (by decide) (by decide) (by decide) (by decide) (by decide)
      · rw [applyFlags_dsig]
        exact hD
    · rw [if_neg hhi] at hacc
      cases hacc
      refine ⟨?_, ?_, ?_⟩
      · intro hh
        rw [applyFlags_hasLo] at hh
        have hne : decide ((procToken last, st.fsig, st.dsig, st.ivars).1 = str "lo")
            = false := by
          refine decide_eq_false ?_
          show ¬ procToken last = str "lo"
          exact hlo
        rw [hne, Bool.or_false] at hh
        rw [applyFlags_fsig]
        show pyContains st.fsig (str "const int* lo") = false
        exact hLo hh
      · intro hh
        rw [applyFlags_hasHi] at hh
        have hne : decide ((procToken last, st.fsig, st.dsig, st.ivars).1 = str "hi")
            = false := by
          refine decide_eq_false ?_
          show ¬ procToken last = str "hi"
          exact hhi
        rw [hne, Bool.or_false] at hh
        rw [applyFlags_fsig]
        show pyContains st.fsig (str "const int* hi") = false
        exact hHi hh
      · rw [applyFlags_dsig]
        exact hD

/-- The whole untagged parameter loop preserves the invariant. -/
theorem paramLoop_untagged_KInv {sig0 d0 : Str} :
    ∀ (vs : List Str) (n : Nat) (st st' : LoopSt),
      paramLoop sig0 [] n vs st = some st' → KInv d0 st → KInv d0 st' := by
  intro vs
  induction vs with
  | nil =>
    intro n st st' h hinv
    simp only [paramLoop] at h
    cases h
    exact hinv
  | cons v vs ih =>
    intro n st st' h hinv
    simp only [paramLoop] at h
    obtain ⟨st1, h1, h2⟩ := Option.bind_eq_some.mp h
    exact ih (n + 1) st1 st' h2 (paramStep_untagged_KInv h1 hinv)

/-- Whether the comma-split parameter list of a captured declaration
contains a parameter whose computed bound name is `b` (the code's notion of
"the signature has variable `b` defined"). -/
def hasBoundParam (sig0 : Str) (pos : List Nat) (b : Str) : Bool :=
  match declsSearch sig0 with
  | none => false
  | some (_, g3, _) =>
    ((pySplitChar ',' g3).enum.any (fun p => decide (boundVarName sig0 pos p.1 p.2 = some b)))

/-- C1 as amended: whenever the rewriter processes a captured declaration
without hitting a Python-level exception (modelled `.crash`: an empty
parameter token or an out-of-range tagged position), rewriting succeeds
exactly when the computed parameter names include both reserved bounds `lo`
and `hi`; when either is missing the run stops with the `sys.exit`
convention-violation message, which contains the offending target name. -/
theorem c1_bound_convention (name sig0 : Str) (pos : List Nat)
    (hnc : processSignature name sig0 pos ≠ RunOut.crash) :
    ((∃ d k, processSignature name sig0 pos = RunOut.ok d k) ↔
      (hasBoundParam sig0 pos (str "lo") && hasBoundParam sig0 pos (str "hi")) = true) ∧
    ((hasBoundParam sig0 pos (str "lo") && hasBoundParam sig0 pos (str "hi")) = false →
      ∃ fsig, processSignature name sig0 pos = RunOut.fatal (fatalMsg name fsig) ∧
        pyContains (fatalMsg name fsig) name = true) := by
  cases hds : declsSearch sig0 with
  | none => exact absurd (by simp [processSignature, hds]) hnc
  | some v =>
    obtain ⟨g1, g3, full⟩ := v
    cases hpl : paramLoop sig0 pos 0 (pySplitChar ',' g3)
        { fsig := sig0, dsig := deviceSigOf name sig0, vars := [], ivars := [],
          hasLo := false, hasHi := false } with
    | none => exact absurd (by simp [processSignature, hds, hpl]) hnc
    | some st =>
      have hflags := paramLoop_flags (pySplitChar ',' g3) 0 _ st hpl
      have hlo : st.hasLo = hasBoundParam sig0 pos (str "lo") := by
        rw [hflags.1]
        simp [hasBoundParam, hds, List.enum]
      have hhi : st.hasHi = hasBoundParam sig0 pos (str "hi") := by
        rw [hflags.2]
        simp [hasBoundParam, hds, List.enum]
      constructor
      · simp only [processSignature, hds, hpl]
        by_cases hb : (st.hasLo && st.hasHi) = true
        · simp only [if_pos hb]
          constructor
          · intro _
            rw [← hlo, ← hhi]
            exact hb
          · intro _
            exact ⟨_, _, rfl⟩
        · simp only [if_neg hb]
          constructor
          · rintro ⟨d, k, hk⟩
            cases hk
          · intro hcontra
            rw [← hlo, ← hhi] at hcontra
            exact absurd hcontra hb
      · intro hfalse
        have hb : (st.hasLo && st.hasHi) = false := by
          rw [hlo, hhi]
          exact hfalse
        refine ⟨st.fsig, ?_, ?_⟩
        · simp [processSignature, hds, hpl, hb]
        · unfold fatalMsg
          simp only [List.append_assoc]
          exact pyContains_middle _ name _

/-- C1 counterexample: for the captured declaration `void foo();` both
bounds are missing, yet the run does not fail with the convention-violation
`sys.exit` naming the target — the empty parameter piece makes
`v.split()[-1]` raise an `IndexError` (modelled `.crash`) before the bound
check is reached, so no fatal message reporting the target name is
produced. -/
theorem c1_counterexample :
    hasBoundParam (str "void foo();\n") [] (str "lo") = false ∧
      hasBoundParam (str "void foo();\n") [] (str "hi") = false ∧
      processSignature (str "foo") (str "void foo();\n") [] = RunOut.crash := by
  set_option maxRecDepth 10000 in decide

/-- Witness for `c1_bound_convention`: the declaration
`void foo(const int* lo);` lacks `hi`, and the run fails with the
convention-violation message containing `foo`. -/
theorem c1_bound_convention_witness :
    ∃ fsig, processSignature (str "foo") (str "void foo(const int* lo);\n") [] =
        RunOut.fatal (fatalMsg (str "foo") fsig) ∧
      pyContains (fatalMsg (str "foo") fsig) (str "foo") = true :=
  (c1_bound_convention (str "foo") (str "void foo(const int* lo);\n") []
    (by set_option maxRecDepth 40000 in decide)).2
    (by set_option maxRecDepth 40000 in decide)

/-! ### Index lemmas for the `decls_re` route of the Target Collector -/

theorem indexOfChar_getElem {c : Char} :
    ∀ {s : Str} {i : Nat}, indexOfChar c s = some i → i < s.length ∧ s[i]? = some c := by
  intro s
  induction s with
  | nil => intro i h; cases h
  | cons x xs ih =>
    intro i h
    simp only [indexOfChar] at h
    split at h
    · rename_i hx
      cases h
      subst hx
      simp
    · cases hrec : indexOfChar c xs with
      | none => rw [hrec] at h; cases h
      | some i' =>
        rw [hrec] at h
        simp only [Option.map_some'] at h
        cases h
        obtain ⟨h1, h2⟩ := ih hrec
        exact ⟨by simpa using h1, by simpa using h2⟩

theorem indexOfChar_take {c : Char} :
    ∀ {s : Str} {i n : Nat}, indexOfChar c s = some i → i < n →
      indexOfChar c (s.take n) = some i := by
  intro s
  induction s with
  | nil => intro i n h _; cases h
  | cons x xs ih =>
    intro i n h hn
    simp only [indexOfChar] at h
    cases n with
    | zero => omega
    | succ m =>
      simp only [List.take_succ_cons, indexOfChar]
      split at h
      · rename_i hx
        cases h
        rw [if_pos hx]
      · rename_i hx
        rw [if_neg hx]
        cases hrec : indexOfChar c xs with
        | none => rw [hrec] at h; cases h
        | some i' =>
          rw [hrec] at h
          simp only [Option.map_some'] at h
          cases h
          rw [ih hrec (by omega)]
          rfl

theorem afterFirstChar_of_indexOf {c : Char} :
    ∀ {s : Str} {i : Nat}, indexOfChar c s = some i →
      afterFirstChar c s = some (s.drop (i + 1)) := by
  intro s
  induction s with
  | nil => intro i h; cases h
  | cons x xs ih =>
    intro i h
    simp only [indexOfChar] at h
    simp only [afterFirstChar]
    split at h
    · rename_i hx
      cases h
      rw [if_pos hx]
      rfl
    · rename_i hx
      rw [if_neg hx]
      cases hrec : indexOfChar c xs with
      | none => rw [hrec] at h; cases h
      | some i' =>
        rw [hrec] at h
        simp only [Option.map_some'] at h
        cases h
        rw [ih hrec]
        rfl

theorem afterFirstChar_dropWhile {c : Char} {p : Char → Bool} (hp : p c = false) :
    ∀ s : Str, afterFirstChar c (s.dropWhile p) = afterFirstChar c s := by
  intro s
  induction s with
  | nil => rfl
  | cons x xs ih =>
    cases hpx : p x with
    | true =>
      have hxc : ¬ (x = c) := by
        intro hxc
        rw [hxc, hp] at hpx
        cases hpx
      rw [List.dropWhile_cons_of_pos hpx]
      rw [ih]
      simp only [afterFirstChar, if_neg hxc]
    | false =>
      rw [List.dropWhile_cons_of_neg (by simp [hpx])]

theorem getLast?_dropWhile {p : Char → Bool} {c : Char} (hc : p c = false) :
    ∀ {s : Str}, s.getLast? = some c → (s.dropWhile p).getLast? = some c := by
  intro s
  induction s with
  | nil => intro h; cases h
  | cons x xs ih =>
    intro h
    cases hpx : p x with
    | false => rw [List.dropWhile_cons_of_neg (by simp [hpx])]; exact h
    | true =>
      rw [List.dropWhile_cons_of_pos hpx]
      cases hxs : xs with
      | nil =>
        subst hxs
        simp only [List.getLast?_singleton] at h
        cases h
        rw [hc] at hpx
        cases hpx
      | cons y ys =>
        rw [← hxs]
        apply ih
        rw [hxs]
        rw [hxs] at h
        simpa [List.getLast?_cons_cons] using h

theorem pyRstrip_of_getLast {s : Str} {c : Char} (h : s.getLast? = some c)
    (hw : isPyWs c = false) : pyRstrip s = s := by
  have h1 : s.reverse.head? = some c := by rw [List.head?_reverse]; exact h
  cases hs : s.reverse with
  | nil => rw [hs] at h1; cases h1
  | cons x xs =>
    rw [hs] at h1
    simp only [List.head?_cons] at h1
    cases h1
    unfold pyRstrip
    rw [hs, List.dropWhile_cons_of_neg (by simp [hw])]
    rw [← hs, List.reverse_reverse]

theorem lastIndexOfChar_spec {c : Char} {s : Str} {j : Nat}
    (h : lastIndexOfChar c s = some j) : j < s.length ∧ s[j]? = some c := by
  unfold lastIndexOfChar at h
  cases hrev : indexOfChar c s.reverse with
  | none => rw [hrev] at h; cases h
  | some k =>
    rw [hrev] at h
    simp only [Option.map_some'] at h
    cases h
    obtain ⟨hk, hget⟩ := indexOfChar_getElem hrev
    rw [List.length_reverse] at hk
    have hrw := List.getElem?_reverse (l := s) (i := k) (by simpa using hk)
    rw [hrw] at hget
    exact ⟨by omega, hget⟩

theorem lastIndexOfChar_of_getLast {c : Char} {s : Str} (h : s.getLast? = some c) :
    lastIndexOfChar c s = some (s.length - 1) := by
  have h1 : s.reverse.head? = some c := by rw [List.head?_reverse]; exact h
  cases hs : s.reverse with
  | nil => rw [hs] at h1; cases h1
  | cons x xs =>
    rw [hs] at h1
    simp only [List.head?_cons] at h1
    cases h1
    unfold lastIndexOfChar
    rw [hs]
    simp [indexOfChar]

theorem getLast?_take_succ {s : Str} {j : Nat} {c : Char} (h : s[j]? = some c) :
    (s.take (j + 1)).getLast? = some c := by
  rw [List.take_succ, h]
  rw [List.getLast?_append_of_ne_nil _ (by simp)]
  rfl

theorem getLast?_drop {s : Str} {k : Nat} (hk : k < s.length) :
    (s.drop k).getLast? = s.getLast? := by
  conv_rhs => rw [← List.take_append_drop k s]
  rw [List.getLast?_append_of_ne_nil]
  intro hn
  rw [List.drop_eq_nil_iff] at hn
  omega

/-- Destructure a successful `decls_re` search into its index description. -/
theorem declsSearch_some {buf g1 g3 full : Str}
    (h : declsSearch buf = some (g1, g3, full)) :
    ∃ i j, indexOfChar '(' buf = some i ∧ lastIndexOfChar ')' buf = some j ∧ i < j ∧
      g1 = buf.take i ∧ g3 = (buf.drop (i + 1)).take (j - (i + 1)) ∧
      full = buf.take (j + 1) := by
  cases hI : indexOfChar '(' buf with
  | none => simp [declsSearch, hI] at h
  | some i =>
    cases hJ : lastIndexOfChar ')' buf with
    | none => simp [declsSearch, hI, hJ] at h
    | some j =>
      simp only [declsSearch, hI, hJ] at h
      split at h
      · rename_i hij
        cases h
        exact ⟨i, j, rfl, rfl, hij, rfl, rfl, rfl⟩
      · cases h

/-- The Target Collector's argument-text route
`group(0).strip().split('(', 1)[1].rsplit(')', 1)[0]` computes exactly the
text between the outermost parentheses, i.e. regex group 3. -/
theorem declsSearch_strip_route {buf g1 g3 full : Str}
    (h : declsSearch buf = some (g1, g3, full)) :
    (afterFirstChar '(' (pyStrip full)).map (beforeLastChar ')') = some g3 := by
  obtain ⟨i, j, hI, hJ, hij, hg1, hg3, hfull⟩ := declsSearch_some h
  obtain ⟨hjlt, hjget⟩ := lastIndexOfChar_spec hJ
  have hfl : full.getLast? = some ')' := by
    rw [hfull]
    exact getLast?_take_succ hjget
  have hstrip : pyStrip full = full.dropWhile isPyWs := by
    unfold pyStrip pyLstrip
    exact pyRstrip_of_getLast (getLast?_dropWhile (by decide) hfl) (by decide)
  have hIfull : indexOfChar '(' full = some i := by
    rw [hfull]
    exact indexOfChar_take hI (by omega)
  have haf : afterFirstChar '(' (pyStrip full) = some (full.drop (i + 1)) := by
    rw [hstrip, afterFirstChar_dropWhile (by decide)]
    exact afterFirstChar_of_indexOf hIfull
  rw [haf, Option.map_some']
  have hlenfull : full.length = j + 1 := by
    rw [hfull, List.length_take]
    omega
  have htlast : (full.drop (i + 1)).getLast? = some ')' := by
    rw [getLast?_drop (by omega)]
    exact hfl
  have hlen : (full.drop (i + 1)).length = j - i := by
    rw [List.length_drop, hlenfull]
    omega
  simp only [beforeLastChar, lastIndexOfChar_of_getLast htlast, hlen]
  rw [hg3, hfull, List.drop_take, List.take_take]
  have hmin : (j - i - 1) ⊓ ((j + 1) - (i + 1)) = j - (i + 1) := by
    rw [Nat.min_def]
    split <;> omega
  rw [hmin]

/-- Follows the spec's words (claim C4): the name is everything before the
first `(` with (all) whitespace removed. -/
def specCallName (buf : Str) : Option Str :=
  (indexOfChar '(' buf).map (fun i => (buf.take i).filter (fun c => !(isPyWs c)))

/-- C4 counterexample: for the captured two-line statement `a =\nfoo(x)` the
collector's name is `strip` plus removal of space characters only, so the
embedded newline survives (`a=\nfoo`), while the claimed
"whitespace removed" name would be `a=foo`. -/
theorem c4_counterexample :
    (parsePragmaCall (str "a =\nfoo(x)") []).map (fun p => p.1) = some (str "a=\nfoo") ∧
      specCallName (str "a =\nfoo(x)") = some (str "a=foo") ∧
      str "a=\nfoo" ≠ str "a=foo" := by
  decide

/-- C4 as amended: on a captured marker statement where `decls_re` matches,
the recorded name is the text before the first `(` trimmed at both ends and
with space characters (only) removed; the argument list is the text between
the outermost `(` and `)` split naively on every comma; and for each tag the
recorded positions are exactly the indices of the arguments whose text
contains the tag token. -/
theorem c4_parse (buf : Str) (tag_list : List Str) (g1 g3 full : Str)
    (h : declsSearch buf = some (g1, g3, full)) :
    parsePragmaCall buf tag_list = some (pyReplace (pyStrip g1) (str " ") [],
      tag_list.map (fun tag =>
        ((pySplitChar ',' g3).enum.filter (fun p => pyContains p.2 tag)).map
          (fun p => p.1))) ∧
    ∀ tag i, (i ∈ ((pySplitChar ',' g3).enum.filter (fun p => pyContains p.2 tag)).map
        (fun p => p.1)) ↔
      ∃ a, (pySplitChar ',' g3)[i]? = some a ∧ pyContains a tag = true := by
  constructor
  · have hroute := declsSearch_strip_route h
    cases haf : afterFirstChar '(' (pyStrip full) with
    | none => rw [haf] at hroute; cases hroute
    | some t =>
      rw [haf] at hroute
      simp only [Option.map_some'] at hroute
      simp only [parsePragmaCall, h, haf]
      rw [Option.some.inj hroute]
  · intro tag i
    simp only [List.mem_map, List.mem_filter]
    constructor
    · rintro ⟨⟨i', a⟩, ⟨hmem, hcont⟩, rfl⟩
      exact ⟨a, List.mk_mem_enum_iff_getElem?.mp hmem, hcont⟩
    · rintro ⟨a, hget, hcont⟩
      exact ⟨(i, a), ⟨List.mk_mem_enum_iff_getElem?.mpr hget, hcont⟩, rfl⟩

/-- Witness for `c4_parse` at the tagged call
`foo(AMREX_INT_ANYD(lo), AMREX_INT_ANYD(hi), a)`. -/
theorem c4_parse_witness :
    parsePragmaCall (str "foo(AMREX_INT_ANYD(lo), AMREX_INT_ANYD(hi), a)")
        [str "AMREX_INT_ANYD"] =
      some (pyReplace (pyStrip (str "foo")) (str " ") [],
        [str "AMREX_INT_ANYD"].map (fun tag =>
          ((pySplitChar ',' (str "AMREX_INT_ANYD(lo), AMREX_INT_ANYD(hi), a")).enum.filter
            (fun p => pyContains p.2 tag)).map (fun p => p.1))) :=
  (c4_parse (str "foo(AMREX_INT_ANYD(lo), AMREX_INT_ANYD(hi), a)")
    [str "AMREX_INT_ANYD"] (str "foo")
    (str "AMREX_INT_ANYD(lo), AMREX_INT_ANYD(hi), a")
    (str "foo(AMREX_INT_ANYD(lo), AMREX_INT_ANYD(hi), a)")
    (by set_option maxRecDepth 40000 in decide)).1

/-! ### Concrete material shared by several theorems -/

/-- Scenario B's declaration, as captured by pass 1 from the single line
`void bar(const int* lo, const int* hi, Real* a);`. -/
def scenB_sig : Str := str "void bar(const int* lo, const int* hi, Real* a);\n"

/-- The device declaration the rewriter emits for Scenario B. -/
def scenB_dev : Str :=
  str "__device__ void bar_device(const int* lo, const int* hi, Real* a);\n;\n\n"

/-- The kernel text the rewriter emits for Scenario B. -/
def scenB_ker : Str :=
  str "\n__global__ static void cuda_bar(const int lo_1, const int lo_2, const int lo_3, const int hi_1, const int hi_2, const int hi_3, Real* a)\n\n\x7b\n   int lo[3] = \x7blo_1, lo_2, lo_3\x7d;\n   int hi[3] = \x7bhi_1, hi_2, hi_3\x7d;\n\n   int blo[3];\n   int bhi[3];\n   for (int k = lo[2] + blockIdx.z * blockDim.z + threadIdx.z; k <= hi[2]; k += blockDim.z * gridDim.z) \x7b\n     blo[2] = k;\n     bhi[2] = k;\n     for (int j = lo[1] + blockIdx.y * blockDim.y + threadIdx.y; j <= hi[1]; j += blockDim.y * gridDim.y) \x7b\n       blo[1] = j;\n       bhi[1] = j;\n       for (int i = lo[0] + blockIdx.x * blockDim.x + threadIdx.x; i <= hi[0]; i += blockDim.x * gridDim.x) \x7b\n         blo[0] = i;\n         bhi[0] = i;\n         bar_device(blo, bhi, a);\n       \x7d\n     \x7d\n   \x7d\n\x7d\n"

/-- Projection: the device declaration of a successful rewrite. -/
def runDevice : RunOut → Option Str
  | .ok d _ => some d
  | _ => none

/-- Projection: the kernel text of a successful rewrite. -/
def runKernel : RunOut → Option Str
  | .ok _ k => some k
  | _ => none

/-- Follows the spec's words (claim C2): a replacement that appends the
suffix at the first occurrence of the name only, leaving every other
occurrence unchanged. -/
def specReplaceFirst (s pat rep : Str) : Str :=
  match pyFind s pat with
  | none => s
  | some i => s.take i ++ rep ++ s.drop (i + pat.length)

/-- Follows the spec's words (claim C2): the device declaration with only
the first occurrence of the preserved-case name suffixed. -/
def specDeviceSigFirstOnly (name sig0 : Str) : Str :=
  let case_name := caseNameOf name sig0
  specReplaceFirst (str "__device__ " ++ sig0 ++ str ";\n\n") case_name
    (case_name ++ str "_device")

/-- A declaration in which the target name `foo` also occurs inside the
parameter name `foo_flag`. -/
def c2sig : Str := str "void foo(const int* lo, const int* hi, int* foo_flag);\n"

/-- C2 counterexample: building the device declaration from `c2sig` does not
leave the second occurrence of `foo` unchanged — `str.replace` rewrites
every occurrence, so the parameter `foo_flag` becomes `foo_device_flag`,
refuting the claimed first-occurrence-only behaviour. -/
theorem c2_counterexample :
    deviceSigOf (str "foo") c2sig ≠ specDeviceSigFirstOnly (str "foo") c2sig ∧
      pyContains (deviceSigOf (str "foo") c2sig) (str "foo_device_flag") = true ∧
      pyContains (specDeviceSigFirstOnly (str "foo") c2sig) (str "foo_device_flag") = false := by
  set_option maxRecDepth 40000 in decide

/-- C2 as amended: the `_device` suffix is appended to every occurrence of
the preserved-case name in the formatted device declaration (Python
`str.replace` is global): the result is the occurrence-split fragment list
joined with the suffixed name. -/
theorem c2_suffix_every_occurrence (name sig0 : Str)
    (h : caseNameOf name sig0 ≠ []) :
    deviceSigOf name sig0 =
      joinSep (caseNameOf name sig0 ++ str "_device")
        (pySplitStr (str "__device__ " ++ sig0 ++ str ";\n\n") (caseNameOf name sig0)) := by
  unfold deviceSigOf
  exact pyReplace_eq_joinSep _ _ _ h

/-- Witness for `c2_suffix_every_occurrence` at the concrete `c2sig`. -/
theorem c2_suffix_every_occurrence_witness :
    caseNameOf (str "foo") c2sig ≠ [] ∧
      deviceSigOf (str "foo") c2sig =
        joinSep (caseNameOf (str "foo") c2sig ++ str "_device")
          (pySplitStr (str "__device__ " ++ c2sig ++ str ";\n\n") (caseNameOf (str "foo") c2sig)) :=
  ⟨by decide, c2_suffix_every_occurrence (str "foo") c2sig (by decide)⟩

/-- C3 counterexample, in three parts, each forcing one restriction of the
amended claim.  (a) For the Scenario B declaration the emitted device half of
the pair still contains the raw pointer forms `const int* lo` and
`const int* hi`, so only the kernel half can be free of them.  (b) For the
spelling variant `void baz(const int *lo, const int *hi);` (star attached to
the name) the rewrite succeeds but the kernel keeps `int *lo`, so only the
exact literal forms are eliminated.  (c) For
`void qux(const int* lo, const int* hi);` with tagged argument position 0,
the legacy bound replacement is skipped for every parameter and the kernel
keeps the raw `const int* hi`, so the claim only holds untagged. -/
theorem c3_counterexample :
    (runDevice (processSignature (str "bar") scenB_sig []) = some scenB_dev ∧
      pyContains scenB_dev (str "const int* lo") = true ∧
      pyContains scenB_dev (str "const int* hi") = true) ∧
    ((runKernel (processSignature (str "baz")
        (str "void baz(const int *lo, const int *hi);\n") [])).map
      (fun k => pyContains k (str "int *lo")) = some true) ∧
    ((runKernel (processSignature (str "qux")
        (str "void qux(const int* lo, const int* hi);\n") [0])).map
      (fun k => pyContains k (str "const int* hi")) = some true) := by
  set_option maxRecDepth 400000 in decide

/-- C3 as amended: for every untagged captured declaration the rewriter
completes successfully, the emitted kernel (launch) declaration is built
from a loop state whose kernel signature contains neither exact raw pointer
form `const int* lo` nor `const int* hi`, while the device half is exactly
the device signature computed before the parameter loop, textually untouched
by it (and so, as at Scenario B, in general still carrying the raw forms). -/
theorem c3_kernel_no_raw_bounds (name sig0 d k : Str)
    (h : processSignature name sig0 [] = RunOut.ok d k) :
    ∃ g1 g3 full st,
      declsSearch sig0 = some (g1, g3, full) ∧
      paramLoop sig0 [] 0 (pySplitChar ',' g3)
        { fsig := sig0, dsig := deviceSigOf name sig0, vars := [], ivars := [],
          hasLo := false, hasHi := false } = some st ∧
      pyContains st.fsig (str "const int* lo") = false ∧
      pyContains st.fsig (str "const int* hi") = false ∧
      d = deviceSigOf name sig0 ∧
      k = templateFormat
            (pyReplace (pySliceFrom st.fsig (pyFindInt (pyLower sig0) name)) (str ";") [])
            (intvectsOf st.ivars)
            (caseNameOf name sig0 ++ str "_device" ++ str "(" ++
              joinSep (str ", ") st.vars ++ str ")") := by
  cases hds : declsSearch sig0 with
  | none => simp [processSignature, hds] at h
  | some v =>
    obtain ⟨g1, g3, full⟩ := v
    cases hpl : paramLoop sig0 [] 0 (pySplitChar ',' g3)
        { fsig := sig0, dsig := deviceSigOf name sig0, vars := [], ivars := [],
          hasLo := false, hasHi := false } with
    | none => simp [processSignature, hds, hpl] at h
    | some st =>
      simp only [processSignature, hds, hpl] at h
      by_cases hb : (st.hasLo && st.hasHi) = true
      · rw [if_pos hb] at h
        have hinv : KInv (deviceSigOf name sig0) st := by
          refine paramLoop_untagged_KInv _ 0 _ st hpl ⟨?_, ?_, rfl⟩
          · intro hc
            simp at hc
          · intro hc
            simp at hc
        rw [Bool.and_eq_true] at hb
        obtain ⟨hA, hB⟩ := hb
        cases h
        exact ⟨g1, g3, full, st, rfl, hpl, hinv.1 hA, hinv.2.1 hB, hinv.2.2, rfl⟩
      · rw [if_neg hb] at h
        cases h

/-- Witness for `c3_kernel_no_raw_bounds` at the Scenario B declaration. -/
theorem c3_kernel_no_raw_bounds_witness :
    ∃ g1 g3 full st,
      declsSearch scenB_sig = some (g1, g3, full) ∧
      paramLoop scenB_sig [] 0 (pySplitChar ',' g3)
        { fsig := scenB_sig, dsig := deviceSigOf (str "bar") scenB_sig, vars := [],
          ivars := [], hasLo := false, hasHi := false } = some st ∧
      pyContains st.fsig (str "const int* lo") = false ∧
      pyContains st.fsig (str "const int* hi") = false ∧
      scenB_dev = deviceSigOf (str "bar") scenB_sig ∧
      scenB_ker = templateFormat
            (pyReplace (pySliceFrom st.fsig (pyFindInt (pyLower scenB_sig) (str "bar")))
              (str ";") [])
            (intvectsOf st.ivars)
            (caseNameOf (str "bar") scenB_sig ++ str "_device" ++ str "(" ++
              joinSep (str ", ") st.vars ++ str ")") :=
  c3_kernel_no_raw_bounds (str "bar") scenB_sig scenB_dev scenB_ker
    (by set_option maxRecDepth 400000 in decide)

/-- C5 counterexample: the line `void foo;` contains no `(` at all, so it
does not match the claimed declaration pattern `<type> <name>(`; yet both
header passes capture it for the pending target `foo`, because
`fortran_binding_re` is just `void\s+[a-z][a-z_]+` with no parenthesis. -/
theorem c5_counterexample :
    findTarget [str "foo"] (str "void foo;\n") = some (str "foo") ∧
      (str "void foo;\n").contains '(' = false := by
  decide

/-- C5 as amended: in both header passes a line starts a captured
declaration exactly when the line — truncated at the first `//`, or with its
final character dropped when no `//` occurs — contains, after lowercasing,
a leftmost match of `void` + whitespace + a name from `[a-z][a-z_]+`, whose
name equals a pending target name.  No `(` is required and the leading type
token is fixed as `void`. -/
theorem c5_match_characterisation (targets : List Str) (line t : Str) :
    findTarget targets line = some t ↔
      (t ∈ targets ∧ ∃ i, matchVoidAt ((pyLower (stripComment line)).drop i) = some t ∧
        ∀ j, j < i → matchVoidAt ((pyLower (stripComment line)).drop j) = none) := by
  unfold findTarget
  cases hb : bindingSearch (pyLower (stripComment line)) with
  | none =>
    simp only [reduceCtorEq, false_iff, not_and]
    intro _
    rw [← bindingSearch_eq_some_iff]
    simp [hb]
  | some g =>
    have hg := (bindingSearch_eq_some_iff (pyLower (stripComment line)) g).mp hb
    constructor
    · intro h
      change (if g ∈ targets then some g else none) = some t at h
      by_cases hmem : g ∈ targets
      · rw [if_pos hmem] at h
        cases h
        exact ⟨hmem, hg⟩
      · rw [if_neg hmem] at h
        cases h
    · rintro ⟨hmem, i, hi, hmin⟩
      have : bindingSearch (pyLower (stripComment line)) = some t :=
        (bindingSearch_eq_some_iff _ _).mpr ⟨i, hi, hmin⟩
      rw [hb] at this
      cases this
      simp [hmem]

/-- C10 counterexample: the pass-1 capture loop tests the matched line
itself first, so it terminates on a one-line declaration even when no
subsequent line (there is none) ends in `;` — refuting the claimed
"terminates iff some subsequent line has a trimmed form ending in `;`". -/
theorem c10_counterexample :
    ¬ (((captureSig1 (str "void foo(const int* lo, const int* hi);") []).isSome = true) ↔
        ∃ l, l ∈ ([] : List Str) ∧ endsWithSemi l = true) := by
  intro h
  obtain ⟨l, hl, -⟩ := h.mp (by decide)
  exact absurd hl (List.not_mem_nil l)

/-- C10 as amended: the collector/call-site capture loop (`captureCall3`)
and the pass-2 loop (`captureSig2c`) run forever exactly when no line after
the trigger has a trimmed form ending in `;`; the pass-1 loop
(`captureSig1`) also inspects the matched line itself, so it runs forever
exactly when neither the matched line nor any subsequent line ends in `;`.
(`none` models the end-of-file infinite loop: `readline` keeps returning
`""`, whose stripped form never ends in `;`.) -/
theorem c10_capture_termination :
    (∀ ls : List Str, captureCall3 ls = none ↔ ∀ l ∈ ls, endsWithSemi l = false) ∧
      (∀ ls : List Str, captureSig2c ls = none ↔ ∀ l ∈ ls, endsWithSemi l = false) ∧
      (∀ (l : Str) (ls : List Str), captureSig1 l ls = none ↔
        (endsWithSemi l = false ∧ ∀ l2 ∈ ls, endsWithSemi l2 = false)) :=
  ⟨captureCall3_eq_none_iff, captureSig2c_eq_none_iff, captureSig1_eq_none_iff⟩

/-- C6: for the untagged Scenario B declaration the rewriter emits exactly
the device declaration `__device__ void bar_device(const int* lo, const
int* hi, Real* a);` (the parameter list of the original, only the name
suffixed with `_device`; the emission format appends `;\n\n` after the
original text's own terminator) and the triple-nested grid-stride kernel
whose innermost body contains the single call `bar_device(blo, bhi, a)`. -/
theorem c6_scenarioB_pair :
    processSignature (str "bar") scenB_sig [] = .ok scenB_dev scenB_ker ∧
      countOccur scenB_ker (str "bar_device(blo, bhi, a)") = 1 ∧
      countOccur scenB_ker (str "for (int ") = 3 := by
  set_option maxRecDepth 100000 in decide

/-! ### Pass-through, emission-shape and deduplication lemmas -/

theorem convertCxxGo_src :
    ∀ (fuel : Nat) (ls : List Str) (items : List CItem),
      ls.length ≤ fuel → convertCxxGo fuel ls = .ok items → citemsSrc items = ls := by
  intro fuel
  induction fuel with
  | zero =>
    intro ls items hlen h
    cases ls with
    | nil => simp only [convertCxxGo] at h; cases h; rfl
    | cons l ls => simp at hlen
  | succ fuel ih =>
    intro ls items hlen h
    cases ls with
    | nil => simp only [convertCxxGo] at h; cases h; rfl
    | cons l ls =>
      simp only [convertCxxGo] at h
      split at h
      · cases hcap : captureCall3 ls with
        | none => simp only [hcap] at h; cases h
        | some v =>
          obtain ⟨buf, consumed, rest⟩ := v
          simp only [hcap] at h
          cases hds : declsSearch buf with
          | none => simp only [hds] at h; cases h
          | some w =>
            obtain ⟨g1, g3, f⟩ := w
            simp only [hds] at h
            cases hrec : convertCxxGo fuel rest with
            | ok items' =>
              simp only [hrec] at h
              cases h
              have hsrc := captureCall3_src hcap
              have hlen' : rest.length ≤ fuel := by
                have hl := congrArg List.length hsrc
                simp only [List.length_append] at hl
                have hcne := captureCall3_consumed_ne_nil hcap
                have : 1 ≤ consumed.length := by
                  cases consumed with
                  | nil => exact absurd rfl hcne
                  | cons a b => simp
                simp only [List.length_cons] at hlen
                omega
              have hres := ih rest items' hlen' hrec
              simp only [citemsSrc, List.map_cons, List.flatten_cons, citemSrc]
              rw [show (items'.map citemSrc).flatten = citemsSrc items' from rfl, hres]
              rw [List.cons_append, hsrc]
            | diverge => simp only [hrec] at h; cases h
            | crash => simp only [hrec] at h; cases h
      · cases hrec : convertCxxGo fuel ls with
        | ok items' =>
          simp only [hrec] at h
          cases h
          have hres := ih ls items' (by simp only [List.length_cons] at hlen; omega) hrec
          simp only [citemsSrc, List.map_cons, List.flatten_cons, citemSrc]
          rw [show (items'.map citemSrc).flatten = citemsSrc items' from rfl, hres]
          rfl
        | diverge => simp only [hrec] at h; cases h
        | crash => simp only [hrec] at h; cases h

theorem convertCxxGo_regions :
    ∀ (fuel : Nat) (ls : List Str) (items : List CItem),
      convertCxxGo fuel ls = .ok items →
      ∀ src out, CItem.reg src out ∈ items →
      ∃ (mk : Str) (cns : List Str) (g1 g3 f : Str),
        src = mk :: cns ∧ pyStartsWith mk (str "#pragma gpu") = true ∧
        declsSearch (bufOfConsumed cns) = some (g1, g3, f) ∧
        out = cxxEmit (pyReplace (pyStrip g1) (str " ") []) g3 := by
  intro fuel
  induction fuel with
  | zero =>
    intro ls items h src out hmem
    cases ls with
    | nil => simp only [convertCxxGo] at h; cases h; simp at hmem
    | cons l ls => simp only [convertCxxGo] at h; cases h
  | succ fuel ih =>
    intro ls items h src out hmem
    cases ls with
    | nil => simp only [convertCxxGo] at h; cases h; simp at hmem
    | cons l ls =>
      simp only [convertCxxGo] at h
      split at h
      · rename_i hpr
        cases hcap : captureCall3 ls with
        | none => simp only [hcap] at h; cases h
        | some v =>
          obtain ⟨buf, consumed, rest⟩ := v
          simp only [hcap] at h
          cases hds : declsSearch buf with
          | none => simp only [hds] at h; cases h
          | some w =>
            obtain ⟨g1, g3, f⟩ := w
            simp only [hds] at h
            cases hrec : convertCxxGo fuel rest with
            | ok items' =>
              simp only [hrec] at h
              cases h
              rcases List.mem_cons.mp hmem with heq | hmem'
              · injection heq with h1 h2
                refine ⟨l, consumed, g1, g3, f, h1, hpr, ?_, h2⟩
                rw [← captureCall3_buf hcap]
                exact hds
              · exact ih rest items' hrec src out hmem'
            | diverge => simp only [hrec] at h; cases h
            | crash => simp only [hrec] at h; cases h
      · cases hrec : convertCxxGo fuel ls with
        | ok items' =>
          simp only [hrec] at h
          cases h
          rcases List.mem_cons.mp hmem with heq | hmem'
          · cases heq
          · exact ih ls items' hrec src out hmem'
        | diverge => simp only [hrec] at h; cases h
        | crash => simp only [hrec] at h; cases h

theorem captureSig2c_consumed_ne_nil {ls : List Str} {c r : List Str}
    (h : captureSig2c ls = some (c, r)) : c ≠ [] := by
  cases ls with
  | nil => simp [captureSig2c] at h
  | cons l ls =>
    simp only [captureSig2c] at h
    split at h
    · cases h; simp
    · cases hrec : captureSig2c ls with
      | none => rw [hrec] at h; simp at h
      | some v =>
        obtain ⟨c', r'⟩ := v
        rw [hrec] at h
        simp only [Option.map_some'] at h
        cases h
        simp

theorem pass2Go_src :
    ∀ (fuel : Nat) (sigNames ls acc : List Str) (items : List HItem) (needed : List Str),
      ls.length ≤ fuel → pass2Go fuel sigNames ls acc = some (items, needed) →
      hitemsSrc items = ls := by
  intro fuel
  induction fuel with
  | zero =>
    intro sigNames ls acc items needed hlen h
    cases ls with
    | nil => simp only [pass2Go] at h; cases h; rfl
    | cons l ls => simp at hlen
  | succ fuel ih =>
    intro sigNames ls acc items needed hlen h
    cases ls with
    | nil => simp only [pass2Go] at h; cases h; rfl
    | cons l ls =>
      simp only [pass2Go] at h
      cases hft : findTarget sigNames l with
      | some name =>
        simp only [hft] at h
        cases hcap : captureSig2c ls with
        | none => simp only [hcap] at h; cases h
        | some v =>
          obtain ⟨c, r⟩ := v
          simp only [hcap] at h
          obtain ⟨p, hp, hf⟩ := Option.map_eq_some'.mp h
          obtain ⟨items', needed'⟩ := p
          simp only at hf
          cases hf
          have hsrc := captureSig2c_src hcap
          have hlen' : r.length ≤ fuel := by
            have hl := congrArg List.length hsrc
            simp only [List.length_append] at hl
            have hcne := captureSig2c_consumed_ne_nil hcap
            have : 1 ≤ c.length := by
              cases c with
              | nil => exact absurd rfl hcne
              | cons a b => simp
            simp only [List.length_cons] at hlen
            omega
          have hres := ih sigNames r _ items' _ hlen' hp
          simp only [hitemsSrc, List.map_cons, List.flatten_cons, hitemSrc]
          rw [show (items'.map hitemSrc).flatten = hitemsSrc items' from rfl, hres]
          rw [List.cons_append, hsrc]
      | none =>
        simp only [hft] at h
        obtain ⟨p, hp, hf⟩ := Option.map_eq_some'.mp h
        obtain ⟨items', needed'⟩ := p
        simp only at hf
        cases hf
        have hres := ih sigNames ls acc items' _
          (by simp only [List.length_cons] at hlen; omega) hp
        simp only [hitemsSrc, List.map_cons, List.flatten_cons, hitemSrc]
        rw [show (items'.map hitemSrc).flatten = hitemsSrc items' from rfl, hres]
        rfl

theorem insertIfAbsent_nodup {acc : List Str} {n : Str} (h : acc.Nodup) :
    (insertIfAbsent acc n).Nodup := by
  unfold insertIfAbsent
  split
  · exact h
  · rename_i hmem
    simp [List.nodup_append, h, hmem]

theorem pass2Go_needed_nodup :
    ∀ (fuel : Nat) (sigNames ls acc : List Str) (items : List HItem) (needed : List Str),
      acc.Nodup → pass2Go fuel sigNames ls acc = some (items, needed) → needed.Nodup := by
  intro fuel
  induction fuel with
  | zero =>
    intro sigNames ls acc items needed hacc h
    cases ls with
    | nil => simp only [pass2Go] at h; cases h; exact hacc
    | cons l ls => simp only [pass2Go] at h; cases h
  | succ fuel ih =>
    intro sigNames ls acc items needed hacc h
    cases ls with
    | nil => simp only [pass2Go] at h; cases h; exact hacc
    | cons l ls =>
      simp only [pass2Go] at h
      cases hft : findTarget sigNames l with
      | some name =>
        simp only [hft] at h
        cases hcap : captureSig2c ls with
        | none => simp only [hcap] at h; cases h
        | some v =>
          obtain ⟨c, r⟩ := v
          simp only [hcap] at h
          obtain ⟨p, hp, hf⟩ := Option.map_eq_some'.mp h
          obtain ⟨items', needed'⟩ := p
          simp only at hf
          cases hf
          exact ih sigNames r _ items' _ (insertIfAbsent_nodup hacc) hp
      | none =>
        simp only [hft] at h
        obtain ⟨p, hp, hf⟩ := Option.map_eq_some'.mp h
        obtain ⟨items', needed'⟩ := p
        simp only at hf
        cases hf
        exact ih sigNames ls acc items' _ hacc hp

theorem emitPairs_names {sigs : List (Str × Str × List Nat)} :
    ∀ {ns : List Str} {pairs : List (Str × Str × Str)},
      emitPairs sigs ns = .ok pairs → pairs.map (fun p => p.1) = ns := by
  intro ns
  induction ns with
  | nil =>
    intro pairs h
    simp only [emitPairs] at h
    cases h
    rfl
  | cons n ns ih =>
    intro pairs h
    simp only [emitPairs] at h
    cases hfind : sigs.find? (fun p => p.1 = n) with
    | none => simp only [hfind] at h; cases h
    | some entry =>
      obtain ⟨_, sig0, pos⟩ := entry
      simp only [hfind] at h
      cases hps : processSignature n sig0 pos with
      | ok dev ker =>
        simp only [hps] at h
        cases hrec : emitPairs sigs ns with
        | ok ps =>
          simp only [hrec] at h
          cases h
          simp only [List.map_cons, ih hrec]
        | fatal m => simp only [hrec] at h; cases h
        | crash => simp only [hrec] at h; cases h
      | fatal m => simp only [hps] at h; cases h
      | crash => simp only [hps] at h; cases h

/-- C8: pass-through fidelity of both file rewriters.  Whenever a scan
terminates, its output decomposition covers exactly the input lines in
order (`citemsSrc`/`hitemsSrc` flatten the decomposition back to the
input), and every non-region line is written verbatim (`citemsOut` /
`hitemsOut` keep such lines unchanged by construction); for `convert_cxx`
the written file is exactly the rendering of the decomposition. -/
theorem c8_passthrough :
    (∀ (lines : List Str) (items : List CItem), convert_cxx lines = .ok items →
      citemsSrc items = lines ∧ convertCxxOutput lines = some (citemsOut items)) ∧
    (∀ (sigNames lines : List Str) (items : List HItem) (needed : List Str),
      pass2Scan sigNames lines = some (items, needed) → hitemsSrc items = lines) := by
  constructor
  · intro lines items h
    refine ⟨convertCxxGo_src lines.length lines items le_rfl h, ?_⟩
    simp only [convertCxxOutput, h]
  · intro sigNames lines items needed h
    exact pass2Go_src lines.length sigNames lines [] items needed le_rfl h

/-- Witness for `c8_passthrough` on two small concrete files. -/
theorem c8_passthrough_witness :
    (citemsSrc [CItem.keep (str "a;\n")] = [str "a;\n"] ∧
      convertCxxOutput [str "a;\n"] = some (citemsOut [CItem.keep (str "a;\n")])) ∧
    hitemsSrc [HItem.reg [str "void foo(const int* lo);\n", str "x;\n"],
        HItem.keep (str "y\n")] =
      [str "void foo(const int* lo);\n", str "x;\n", str "y\n"] :=
  ⟨c8_passthrough.1 [str "a;\n"] [CItem.keep (str "a;\n")] (by decide),
   c8_passthrough.2 [str "foo"]
     [str "void foo(const int* lo);\n", str "x;\n", str "y\n"]
     [HItem.reg [str "void foo(const int* lo);\n", str "x;\n"], HItem.keep (str "y\n")]
     [str "foo"] (by set_option maxRecDepth 10000 in decide)⟩

/-- C7: every marker-triggered region of `convert_cxx` is replaced by
exactly the fixed launch sequence `cxxEmit` — two shape-local declarations,
the occupancy-query call, the toolchain-version-guarded attribute statement
and one `cuda_<name><<<...>>>` invocation on the fixed stream — applied to
the name derived from the captured call and the raw unsplit argument text
between the outermost parentheses (regex group 3). -/
theorem c7_call_site_expansion (lines : List Str) (items : List CItem)
    (h : convert_cxx lines = .ok items) :
    ∀ src out, CItem.reg src out ∈ items →
    ∃ (mk : Str) (cns : List Str) (g1 g3 f : Str),
      src = mk :: cns ∧ pyStartsWith mk (str "#pragma gpu") = true ∧
      declsSearch (bufOfConsumed cns) = some (g1, g3, f) ∧
      out = cxxEmit (pyReplace (pyStrip g1) (str " ") []) g3 :=
  convertCxxGo_regions lines.length lines items h

/-- Witness for `c7_call_site_expansion` on a marked call with nested
parenthesised commas. -/
theorem c7_call_site_expansion_witness :
    ∃ (mk : Str) (cns : List Str) (g1 g3 f : Str),
      [str "#pragma gpu\n", str "foo(a, f(b,c), d);\n"] = mk :: cns ∧
      pyStartsWith mk (str "#pragma gpu") = true ∧
      declsSearch (bufOfConsumed cns) = some (g1, g3, f) ∧
      cxxEmit (str "foo") (str "a, f(b,c), d") =
        cxxEmit (pyReplace (pyStrip g1) (str " ") []) g3 := by
  have := c7_call_site_expansion
    [str "#pragma gpu\n", str "foo(a, f(b,c), d);\n"]
    [CItem.reg [str "#pragma gpu\n", str "foo(a, f(b,c), d);\n"]
      (cxxEmit (str "foo") (str "a, f(b,c), d"))]
    (by set_option maxRecDepth 40000 in decide)
    [str "#pragma gpu\n", str "foo(a, f(b,c), d);\n"]
    (cxxEmit (str "foo") (str "a, f(b,c), d"))
    (by simp)
  exact this

theorem count_eq_ite_of_nodup {a : Str} :
    ∀ {l : List Str}, l.Nodup → List.count a l = if a ∈ l then 1 else 0 := by
  intro l
  induction l with
  | nil => intro _; simp
  | cons x xs ih =>
    intro hnd
    obtain ⟨hx, hxs⟩ := List.nodup_cons.mp hnd
    rw [List.count_cons, ih hxs]
    by_cases hax : a = x
    · subst hax
      simp [hx]
    · simp [hax, List.mem_cons, Ne.symm hax]

/-- C9: one emitted device/kernel pair per declaration name.  However many
lines of a header match the same target (directly or via included headers in
the preprocessed pass), `signatures_needed` holds each name once, and the
emission loop produces exactly one pair per needed name. -/
theorem c9_one_pair_per_name (sigNames lines : List Str) (items : List HItem)
    (needed : List Str) (sigs : List (Str × Str × List Nat))
    (pairs : List (Str × Str × Str))
    (h2 : pass2Scan sigNames lines = some (items, needed))
    (he : emitPairs sigs needed = .ok pairs) :
    needed.Nodup ∧
      ∀ nm : Str, List.count nm (pairs.map (fun p => p.1)) =
        if nm ∈ needed then 1 else 0 := by
  have hnd : needed.Nodup :=
    pass2Go_needed_nodup lines.length sigNames lines [] items needed List.nodup_nil h2
  refine ⟨hnd, ?_⟩
  intro nm
  rw [emitPairs_names he]
  exact count_eq_ite_of_nodup hnd

/-- Witness for `c9_one_pair_per_name`: a header in which the target `foo`
is matched twice still needs it only once and yields exactly one pair. -/
theorem c9_one_pair_per_name_witness :
    [str "bar"].Nodup ∧
      ∀ nm : Str, List.count nm
          ([((str "bar"), scenB_dev, scenB_ker)].map (fun p => p.1)) =
        if nm ∈ [str "bar"] then 1 else 0 := by
  refine c9_one_pair_per_name [str "bar"]
    [scenB_sig, str "x;\n", scenB_sig, str "x;\n"]
    [HItem.reg [scenB_sig, str "x;\n"], HItem.reg [scenB_sig, str "x;\n"]]
    [str "bar"]
    [(str "bar", scenB_sig, [])]
    [((str "bar"), scenB_dev, scenB_ker)]
    (by set_option maxRecDepth 40000 in decide)
    (by set_option maxRecDepth 400000 in decide)

end WriteCudaHeaders
